import Mathlib

/-!
Verification of the PFS archive codec (crates/zu_common/src/archive/pfs).

Bytes are modelled as `Nat` (values < 256 in well-formed data), byte buffers as
`List Nat`, and Rust `HashMap`s as association lists in iteration order.  A
fallible Rust computation is modelled by `RustOut`: it either returns a value,
returns an `ArchiveError`, or panics (out-of-range slice indexing or `usize`
underflow).  The zlib codec supplied by the third-party `flate2` crate is not part
of this repository; it is modelled abstractly as a `Zlib` structure holding a
total compressor, a fallible decompressor and the decode-of-encode law, and
every theorem is stated for an arbitrary such codec.  Loops whose variant is not a
structural argument are written with an explicit fuel parameter that provably
dominates the source loop's iteration count.
-/

set_option maxHeartbeats 1000000
set_option maxRecDepth 100000

namespace PFS

/-! Definitions: the shallow embedding of the codec. -/

/-- Model of `ArchiveError` (archive_error.rs), payloads dropped except the
version number. -/
inductive ArchiveError where
  | io : ArchiveError
  | wrongVersion : Nat → ArchiveError
  | parseErr : ArchiveError
  | compression : ArchiveError
  | decompression : ArchiveError
  | srcFileAlreadyExists : ArchiveError
  | srcFileNotFound : ArchiveError
  | destFileAlreadyExists : ArchiveError
  | badRegex : ArchiveError
  | utf8 : ArchiveError
  | unknown : ArchiveError
deriving DecidableEq, Repr

/-- Outcome of a fallible Rust computation: a value, an `ArchiveError` return,
or a panic (out-of-bounds slice / arithmetic underflow). -/
inductive RustOut (α : Type) where
  | ok : α → RustOut α
  | err : ArchiveError → RustOut α
  | panic : RustOut α
deriving DecidableEq, Repr

def RustOut.bind {α β : Type} : RustOut α → (α → RustOut β) → RustOut β
  | .ok a, f => f a
  | .err e, _ => .err e
  | .panic, _ => .panic

instance : Monad RustOut where
  pure := RustOut.ok
  bind := RustOut.bind

@[simp] theorem RustOut.bind_ok {α β : Type} (a : α) (f : α → RustOut β) :
    RustOut.bind (.ok a) f = f a := rfl

@[simp] theorem RustOut.bind_err {α β : Type} (e : ArchiveError) (f : α → RustOut β) :
    RustOut.bind (.err e) f = .err e := rfl

@[simp] theorem RustOut.bind_panic {α β : Type} (f : α → RustOut β) :
    RustOut.bind .panic f = .panic := rfl

@[simp] theorem RustOut.pure_eq {α : Type} (a : α) : (pure a : RustOut α) = .ok a := rfl

@[simp] theorem RustOut.bind_eq {α β : Type} (x : RustOut α) (f : α → RustOut β) :
    x >>= f = RustOut.bind x f := rfl

/-- Little-endian serialisation of a `u32` (any `Nat` is truncated mod 2^32,
matching Rust release-mode `as u32` casts). -/
def u32le (n : Nat) : List Nat :=
  [n % 256, n / 256 % 256, n / 2 ^ 16 % 256, n / 2 ^ 24 % 256]

/-- Model of nom's `le_u32` on a byte slice: four little-endian bytes or a
parse error. -/
def le_u32 : List Nat → RustOut (Nat × List Nat)
  | b0 :: b1 :: b2 :: b3 :: rest =>
      .ok (b0 + 256 * b1 + 2 ^ 16 * b2 + 2 ^ 24 * b3, rest)
  | _ => .err .parseErr

@[simp] theorem u32le_length (n : Nat) : (u32le n).length = 4 := rfl

/-- Rust `str::to_lowercase`, modelled on the ASCII range (the only range the
archive format and its tests exercise): bytes `A`–`Z` map to `a`–`z`. -/
def lowerByte (b : Nat) : Nat := if 65 ≤ b ∧ b ≤ 90 then b + 32 else b

def lowerBytes (s : List Nat) : List Nat := s.map lowerByte

/-! CRC engine (constants.rs): polynomial 0x04C11DB7, init 0, no reflection,
no final xor; the digest appends one NUL byte to the name. -/

def FILENAMES_CRC_VALUE : Nat := 0x61580ac9

def MAX_BLOCK_SIZE : Nat := 8192

/-- One shift-and-conditionally-xor step of the MSB-first CRC-32. -/
def crcStep (c : Nat) : Nat :=
  if c / 2 ^ 31 % 2 = 1 then Nat.xor (c * 2 % 2 ^ 32) 0x04c11db7 else c * 2 % 2 ^ 32

/-- Fold one input byte into the running CRC (xor into the top byte, then
eight MSB-first steps). -/
def crcByte (c b : Nat) : Nat :=
  crcStep (crcStep (crcStep (crcStep (crcStep (crcStep (crcStep (crcStep
    (Nat.xor c (b % 256 * 2 ^ 24)))))))))

def crcBytes (s : List Nat) : Nat := s.foldl crcByte 0

/-- CRC of a filename as the archive computes it: over the name bytes followed
by one NUL. -/
def pfsCrc (name : List Nat) : Nat := crcBytes (name ++ [0])

/-! Abstract model of the third-party zlib codec (flate2 crate). -/

/-- Abstract zlib codec: a total compressor, a fallible decompressor, and the
law that decoding an encoded buffer gives the buffer back.  Every theorem
below holds for an arbitrary codec with these properties; `idZ` instantiates
it for concrete evaluation. -/
structure Zlib where
  compress : List Nat → List Nat
  decompress : List Nat → Option (List Nat)
  round : ∀ bs : List Nat, decompress (compress bs) = some bs

/-- Identity instantiation of the abstract codec, used to evaluate the model
on concrete archives. -/
def idZ : Zlib where
  compress := id
  decompress := some
  round := fun _ => rfl

/-! Blocks (readwrite.rs): a zlib-compressed chunk with its stored lengths. -/

/-- Model of `ReadWriteArchiveFileBlock`. -/
structure ReadWriteArchiveFileBlock where
  deflate_length : Nat
  inflate_length : Nat
  data : List Nat
deriving DecidableEq, Repr

abbrev Block := ReadWriteArchiveFileBlock

/-- Model of `ReadWriteArchiveFile`: the cached deflated block list. -/
structure ReadWriteArchiveFile where
  blocks : List Block
deriving DecidableEq, Repr

/-- Byte serialisation of one block as both save paths emit it:
`u32(deflate_len) || u32(inflate_len) || data`. -/
def serBlock (b : Block) : List Nat :=
  u32le b.deflate_length ++ u32le b.inflate_length ++ b.data

def serBlocks : List Block → List Nat
  | [] => []
  | b :: rest => serBlock b ++ serBlocks rest

/-- Loop body of `ReadWriteArchiveFile::deflate` (readwrite.rs): split the
input into chunks of exactly `MAX_BLOCK_SIZE = 8192` bytes (the last chunk
may be shorter), compressing each.  The fuel dominates the iteration count:
each iteration consumes at least one input byte. -/
def deflateGo (z : Zlib) : Nat → List Nat → List Block
  | 0, _ => []
  | fuel + 1, l =>
    if l.length = 0 then []
    else
      let sz := if MAX_BLOCK_SIZE < l.length then MAX_BLOCK_SIZE else l.length
      ⟨(z.compress (l.take sz)).length, sz, z.compress (l.take sz)⟩ ::
        deflateGo z fuel (l.drop sz)

/-- Model of `ReadWriteArchiveFile::deflate`. -/
def ReadWriteArchiveFile.deflate (z : Zlib) (input : List Nat) : ReadWriteArchiveFile :=
  ⟨deflateGo z input.length input⟩

/-- Model of `ReadWriteArchiveFile::len`: sum of the block inflate lengths. -/
def ReadWriteArchiveFile.len (f : ReadWriteArchiveFile) : Nat :=
  f.blocks.foldl (fun acc b => acc + b.inflate_length) 0

/-- Decompression of one block (`ZlibDecoder::read` into a buffer of
`inflate_length + 1` zeros, truncated to the bytes actually produced); a
decoder failure surfaces through `?` as an I/O error. -/
def inflateBlock (z : Zlib) (b : Block) : RustOut (List Nat) :=
  match z.decompress b.data with
  | some d => .ok (d.take (b.inflate_length + 1))
  | none => .err .io

/-- Loop of `ReadWriteArchiveFile::inflate`: concatenate the per-block
decompressed output. -/
def inflateBlocks (z : Zlib) : List Block → RustOut (List Nat)
  | [] => .ok []
  | b :: rest => do
    let d ← inflateBlock z b
    let r ← inflateBlocks z rest
    pure (d ++ r)

/-- Model of `ReadWriteArchiveFile::inflate`. -/
def ReadWriteArchiveFile.inflate (z : Zlib) (f : ReadWriteArchiveFile) : RustOut (List Nat) :=
  inflateBlocks z f.blocks

/-- Loop body of `WritableArchiveFile::deflate` (writable.rs), which emits the
serialised block bytes directly. -/
def wDeflateGo (z : Zlib) : Nat → List Nat → List Nat
  | 0, _ => []
  | fuel + 1, l =>
    if l.length = 0 then []
    else
      let sz := if MAX_BLOCK_SIZE < l.length then MAX_BLOCK_SIZE else l.length
      u32le (z.compress (l.take sz)).length ++ u32le sz ++ z.compress (l.take sz) ++
        wDeflateGo z fuel (l.drop sz)

/-- Model of `WritableArchiveFile::deflate`: the serialised block stream of
the raw data. -/
def WritableArchiveFile.deflate (z : Zlib) (data : List Nat) : List Nat :=
  wDeflateGo z data.length data

/-! Filename table codec (common.rs). -/

/-- Automaton step table for strict UTF-8 validity as `std::str::from_utf8`
checks it: `need` lists the admissible ranges of the pending continuation
bytes (handling overlongs, surrogates and the U+10FFFF cap). -/
def validUTF8Go : List (Nat × Nat) → List Nat → Bool
  | [], [] => true
  | _ :: _, [] => false
  | (lo, hi) :: need, b :: l => decide (lo ≤ b ∧ b ≤ hi) && validUTF8Go need l
  | [], b :: l =>
    if b < 128 then validUTF8Go [] l
    else if 194 ≤ b ∧ b ≤ 223 then validUTF8Go [(128, 191)] l
    else if b = 224 then validUTF8Go [(160, 191), (128, 191)] l
    else if (225 ≤ b ∧ b ≤ 236) ∨ b = 238 ∨ b = 239 then
      validUTF8Go [(128, 191), (128, 191)] l
    else if b = 237 then validUTF8Go [(128, 159), (128, 191)] l
    else if b = 240 then validUTF8Go [(144, 191), (128, 191), (128, 191)] l
    else if 241 ≤ b ∧ b ≤ 243 then
      validUTF8Go [(128, 191), (128, 191), (128, 191)] l
    else if b = 244 then validUTF8Go [(128, 143), (128, 191), (128, 191)] l
    else false

/-- Strict UTF-8 validity of a byte sequence. -/
def validUTF8 (l : List Nat) : Bool := validUTF8Go [] l

/-- One length-tagged, NUL-terminated entry of the filename table. -/
def filenameEntry (name : List Nat) : List Nat :=
  u32le (name.length + 1) ++ name ++ [0]

def filenameEntries : List (List Nat) → List Nat
  | [] => []
  | n :: rest => filenameEntry n ++ filenameEntries rest

/-- Model of `write_filenames` (common.rs): `u32` count, then for each name
`u32(len + 1) || name || 0x00`. -/
def write_filenames (filenames : List (List Nat)) : List Nat :=
  u32le filenames.length ++ filenameEntries filenames

/-- Loop of `_parse_filenames` (common.rs).  Reading a zero length field
panics: `&str[..(len as usize - 1)]` underflows `usize`. -/
def parseFilenamesGo : Nat → List Nat → RustOut (List (List Nat))
  | 0, _ => .ok []
  | n + 1, current => do
    let (len, pos) ← le_u32 current
    if pos.length < len then .err .parseErr
    else
      let str := pos.take len
      if len = 0 then .panic
      else if validUTF8 (str.take (len - 1)) then do
        let rest ← parseFilenamesGo n (pos.drop len)
        pure (str.take (len - 1) :: rest)
      else .err .utf8

/-- Model of `parse_filenames` / `_parse_filenames` (common.rs). -/
def parse_filenames (input : List Nat) : RustOut (List (List Nat)) := do
  let (count, current) ← le_u32 input
  parseFilenamesGo count current

/-! Association lists in iteration order, modelling `HashMap`. -/

section AList

variable {κ α : Type} [DecidableEq κ]

def findVal (k : κ) : List (κ × α) → Option α
  | [] => none
  | (k', v) :: rest => if k' = k then some v else findVal k rest

def containsKey (k : κ) (l : List (κ × α)) : Bool := (findVal k l).isSome

/-- Insertion with `HashMap::insert` semantics: replace the existing entry,
otherwise append. -/
def insertR (k : κ) (v : α) : List (κ × α) → List (κ × α)
  | [] => [(k, v)]
  | (k', v') :: rest => if k' = k then (k, v) :: rest else (k', v') :: insertR k v rest

/-- Removal with `HashMap::remove` semantics: the removed value, if any, and
the remaining entries. -/
def removeKey (k : κ) : List (κ × α) → Option α × List (κ × α)
  | [] => (none, [])
  | (k', v) :: rest =>
    if k' = k then (some v, rest)
    else
      let r := removeKey k rest
      (r.1, (k', v) :: r.2)

end AList

/-! Directory parsing, shared shape of `ReadableArchive::do_parse` and
`ReadWriteArchive::do_parse`. -/

/-- Model of nom's `tag("PFS ")`. -/
def tagPFS (input : List Nat) : RustOut (List Nat) :=
  if input.take 4 = [80, 70, 83, 32] then .ok (input.drop 4) else .err .parseErr

/-- Header phase of both `do_parse` functions: directory offset, magic,
version check. -/
def parseHeader (input : List Nat) : RustOut Nat := do
  let (dir_offset, current) ← le_u32 input
  let current ← tagPFS current
  let (version, _) ← le_u32 current
  if version ≠ 131072 then .err (.wrongVersion version) else .ok dir_offset

/-- Model of nom's `count(tuple((le_u32, le_u32, le_u32)), n)`: the directory
entries `(crc, offset, size)`. -/
def parseTriples : Nat → List Nat → RustOut (List (Nat × Nat × Nat))
  | 0, _ => .ok []
  | n + 1, current => do
    let (a, current) ← le_u32 current
    let (b, current) ← le_u32 current
    let (c, current) ← le_u32 current
    let rest ← parseTriples n current
    pure ((a, b, c) :: rest)

/-- Model of `ReadWriteArchive::parse_pfs_file_block`. -/
def parse_pfs_file_block (current : List Nat) : RustOut Block := do
  let (deflate_length, current) ← le_u32 current
  let (inflate_length, current) ← le_u32 current
  if current.length < deflate_length then .err .parseErr
  else .ok ⟨deflate_length, inflate_length, current.take deflate_length⟩

/-- Loop of `ReadWriteArchive::parse_pfs_file_blocks`: walk `(position,
inflate)` until the cumulative inflate length reaches `size`; re-slicing at a
position past the end of the input panics.  Each iteration advances the
position by at least 8, so `input.length + 1` fuel dominates the loop. -/
def parseBlocksGo (input : List Nat) (size : Nat) : Nat → Nat → Nat → RustOut (List Block)
  | 0, _, _ => .panic
  | fuel + 1, position, inflate =>
    if size ≤ inflate then .ok []
    else if input.length < position then .panic
    else
      match parse_pfs_file_block (input.drop position) with
      | .err e => .err e
      | .panic => .panic
      | .ok b =>
        match parseBlocksGo input size fuel (position + b.deflate_length + 8)
            (inflate + b.inflate_length) with
        | .ok rest => .ok (b :: rest)
        | .err e => .err e
        | .panic => .panic

/-- Model of `ReadWriteArchive::parse_pfs_file_blocks` on an already-sliced
input. -/
def parse_pfs_file_blocks (input : List Nat) (size : Nat) : RustOut (List Block) :=
  parseBlocksGo input size (input.length + 1) 0 0

/-- Entry loop of `ReadWriteArchive::do_parse`: for each directory entry,
slice the input at the entry's offset (panicking past the end) and parse its
block stream into the crc-keyed map. -/
def entryLoopRW (input : List Nat) :
    List (Nat × Nat × Nat) → List (Nat × ReadWriteArchiveFile) →
      RustOut (List (Nat × ReadWriteArchiveFile))
  | [], parsed => .ok parsed
  | (crc, offset, size) :: rest, parsed =>
    if input.length < offset then .panic
    else
      match parse_pfs_file_blocks (input.drop offset) size with
      | .ok blocks => entryLoopRW input rest (insertR crc ⟨blocks⟩ parsed)
      | .err e => .err e
      | .panic => .panic

/-- Filename-matching loop shared by both `do_parse` functions: for each
decoded name, move the entry with the name's CRC (if any) from the crc-keyed
map into the result. -/
def resolveLoop {φ : Type} :
    List (List Nat) → List (Nat × φ) → List (List Nat × φ) → List (List Nat × φ)
  | [], _, ret => ret
  | name :: rest, parsed, ret =>
    match removeKey (pfsCrc name) parsed with
    | (some f, parsed') => resolveLoop rest parsed' (insertR name f ret)
    | (none, parsed') => resolveLoop rest parsed' ret

/-- Name-resolution phase shared by both `do_parse` functions: find the
sentinel entry, inflate it, decode the filename table (errors fall back to an
empty name list via `unwrap_or_default`), and match names to entries by CRC. -/
def resolveNames {φ : Type} (inflateF : φ → RustOut (List Nat))
    (parsed : List (Nat × φ)) : RustOut (List (List Nat × φ)) :=
  match findVal FILENAMES_CRC_VALUE parsed with
  | none => .ok (resolveLoop [] parsed [])
  | some f =>
    match inflateF f with
    | .err e => .err e
    | .panic => .panic
    | .ok d =>
      match parse_filenames d with
      | .panic => .panic
      | .err _ => .ok (resolveLoop [] parsed [])
      | .ok names => .ok (resolveLoop names parsed [])

/-- Directory phase of `ReadWriteArchive::do_parse`: header, directory
entries, per-entry block streams.  Jumping to a `directory_offset` past the
end of the input panics. -/

def parseDirectoryRW (input : List Nat) : RustOut (List (Nat × ReadWriteArchiveFile)) := do
  let dir_offset ← parseHeader input
  if input.length < dir_offset then .panic
  else do
    let (dir_count, current) ← le_u32 (input.drop dir_offset)
    let directory_entries ← parseTriples dir_count current
    entryLoopRW input directory_entries []

/-- Model of `ReadWriteArchive::do_parse`. -/
def ReadWriteArchive.do_parse (z : Zlib) (input : List Nat) :
    RustOut (List (List Nat × ReadWriteArchiveFile)) :=
  (parseDirectoryRW input).bind (resolveNames (ReadWriteArchiveFile.inflate z))

/-! Readable archive (readable.rs): blocks carry offsets into the owned
buffer instead of copied bytes. -/

/-- Model of `ArchiveFileBlock` (readable.rs). -/
structure ArchiveFileBlock where
  deflate_length : Nat
  inflate_length : Nat
  offset : Nat
deriving DecidableEq, Repr

/-- Model of `ArchiveFile` (readable.rs). -/
structure ArchiveFile where
  size : Nat
  blocks : List ArchiveFileBlock
deriving DecidableEq, Repr

/-- Model of `ReadableArchive::parse_pfs_file_block`: record the lengths and
the absolute offset of the block's data. -/
def ReadableArchive.parse_pfs_file_block (current : List Nat) (offset : Nat) :
    RustOut ArchiveFileBlock := do
  let (deflate_length, current) ← le_u32 current
  let (inflate_length, current) ← le_u32 current
  if current.length < deflate_length then .err .parseErr
  else .ok ⟨deflate_length, inflate_length, offset + 8⟩

/-- Loop of `ReadableArchive::parse_pfs_file_blocks` (fuel as in
`parseBlocksGo`). -/
def parseBlocksGoR (input : List Nat) (offset size : Nat) :
    Nat → Nat → Nat → RustOut (List ArchiveFileBlock)
  | 0, _, _ => .panic
  | fuel + 1, position, inflate =>
    if size ≤ inflate then .ok []
    else if input.length < position then .panic
    else
      match ReadableArchive.parse_pfs_file_block (input.drop position) (offset + position) with
      | .err e => .err e
      | .panic => .panic
      | .ok b =>
        match parseBlocksGoR input offset size fuel (position + b.deflate_length + 8)
            (inflate + b.inflate_length) with
        | .ok rest => .ok (b :: rest)
        | .err e => .err e
        | .panic => .panic

/-- Model of `ReadableArchive::parse_pfs_file_blocks` on an already-sliced
input with the slice's absolute offset. -/
def ReadableArchive.parse_pfs_file_blocks (input : List Nat) (offset size : Nat) :
    RustOut (List ArchiveFileBlock) :=
  parseBlocksGoR input offset size (input.length + 1) 0 0

/-- Model of `ReadableArchive::inflate_file_entry`: decompress each block from
its slice of the owned buffer; a slice past the end of the buffer panics. -/
def inflateEntryGo (z : Zlib) (data : List Nat) : List ArchiveFileBlock → RustOut (List Nat)
  | [] => .ok []
  | b :: rest =>
    if data.length < b.offset + b.deflate_length then .panic
    else
      match z.decompress ((data.drop b.offset).take b.deflate_length) with
      | none => .err .io
      | some d => do
        let r ← inflateEntryGo z data rest
        pure (d.take (b.inflate_length + 1) ++ r)

def ReadableArchive.inflate_file_entry (z : Zlib) (data : List Nat) (entry : ArchiveFile) :
    RustOut (List Nat) :=
  inflateEntryGo z data entry.blocks

/-- Entry loop of `ReadableArchive::do_parse`. -/
def entryLoopR (input : List Nat) :
    List (Nat × Nat × Nat) → List (Nat × ArchiveFile) → RustOut (List (Nat × ArchiveFile))
  | [], parsed => .ok parsed
  | (crc, offset, size) :: rest, parsed =>
    if input.length < offset then .panic
    else
      match ReadableArchive.parse_pfs_file_blocks (input.drop offset) offset size with
      | .ok blocks => entryLoopR input rest (insertR crc ⟨size, blocks⟩ parsed)
      | .err e => .err e
      | .panic => .panic

/-- Directory phase of `ReadableArchive::do_parse`. -/
def parseDirectoryR (input : List Nat) : RustOut (List (Nat × ArchiveFile)) := do
  let dir_offset ← parseHeader input
  if input.length < dir_offset then .panic
  else do
    let (dir_count, current) ← le_u32 (input.drop dir_offset)
    let directory_entries ← parseTriples dir_count current
    entryLoopR input directory_entries []

/-- Model of `ReadableArchive::do_parse`. -/
def ReadableArchive.do_parse (z : Zlib) (input : List Nat) :
    RustOut (List (List Nat × ArchiveFile)) :=
  (parseDirectoryR input).bind (resolveNames (ReadableArchive.inflate_file_entry z input))

/-! Writable archive (writable.rs): name → raw bytes, deflated at save time. -/

/-- Model of `WritableArchive`: the `files` map in iteration order, each value
the raw `data` of a `WritableArchiveFile`. -/
abbrev WritableArchive := List (List Nat × List Nat)

/-- Per-file loop of `WritableArchive::save_to_bytes`, threading the growing
data section, directory section and filename list. -/
def saveLoopW (z : Zlib) :
    List (List Nat × List Nat) → List Nat × List Nat × List (List Nat) →
      List Nat × List Nat × List (List Nat)
  | [], st => st
  | (filename, fdata) :: rest, (data, directory, filenames) =>
    let blocks := WritableArchiveFile.deflate z fdata
    let offset := data.length + 12
    let crc := pfsCrc (lowerBytes filename)
    saveLoopW z rest
      (data ++ blocks,
       directory ++ u32le crc ++ u32le offset ++ u32le fdata.length,
       filenames ++ [filename])

/-- Model of `WritableArchive::save_to_bytes`. -/
def WritableArchive.save_to_bytes (z : Zlib) (files : WritableArchive) : List Nat :=
  let st := saveLoopW z files ([], u32le (files.length + 1), [])
  let filenames_data := write_filenames st.2.2
  let blocks := WritableArchiveFile.deflate z filenames_data
  let offset := st.1.length + 12
  let data := st.1 ++ blocks
  let directory :=
    st.2.1 ++ u32le FILENAMES_CRC_VALUE ++ u32le offset ++ u32le filenames_data.length
  u32le (data.length + 12) ++ [80, 70, 83, 32] ++ u32le 131072 ++ data ++ directory

/-- Model of `WritableArchive::set`: refuses to overwrite.  The pair is the
returned `Result` and the archive after the call. -/
def WritableArchive.set (files : WritableArchive) (in_archive_path input : List Nat) :
    RustOut Unit × WritableArchive :=
  let lower := lowerBytes in_archive_path
  if containsKey lower files then (.err .destFileAlreadyExists, files)
  else (.ok (), insertR lower input files)

/-- Model of `WritableArchive::remove`. -/
def WritableArchive.remove (files : WritableArchive) (in_archive_path : List Nat) :
    RustOut Unit × WritableArchive :=
  let lower := lowerBytes in_archive_path
  let r := removeKey lower files
  match r.1 with
  | some _ => (.ok (), r.2)
  | none => (.err .srcFileNotFound, files)

/-- Model of `WritableArchive::rename`: destination-exists check first, then
move the entry. -/
def WritableArchive.rename (files : WritableArchive) (from_path to_path : List Nat) :
    RustOut Unit × WritableArchive :=
  let lower := lowerBytes from_path
  let newLower := lowerBytes to_path
  if containsKey newLower files then (.err .destFileAlreadyExists, files)
  else
    let r := removeKey lower files
    match r.1 with
    | some f => (.ok (), insertR newLower f r.2)
    | none => (.err .srcFileNotFound, files)

/-- Model of `WritableArchive::copy`: destination-exists check first, then
clone the source data. -/
def WritableArchive.copy (files : WritableArchive) (from_path to_path : List Nat) :
    RustOut Unit × WritableArchive :=
  let lower := lowerBytes from_path
  let newLower := lowerBytes to_path
  if containsKey newLower files then (.err .destFileAlreadyExists, files)
  else
    match findVal lower files with
    | some f => (.ok (), insertR newLower f files)
    | none => (.err .srcFileNotFound, files)

/-! ReadWrite archive (readwrite.rs): name → cached deflated blocks. -/

/-- Model of `ReadWriteArchive`: the `files` map in iteration order. -/
abbrev ReadWriteArchive := List (List Nat × ReadWriteArchiveFile)

/-- Per-file loop of `ReadWriteArchive::save_to_bytes`: re-emit the cached
blocks verbatim. -/
def saveLoopRW :
    List (List Nat × ReadWriteArchiveFile) → List Nat × List Nat × List (List Nat) →
      List Nat × List Nat × List (List Nat)
  | [], st => st
  | (filename, file) :: rest, (data, directory, filenames) =>
    let offset := data.length + 12
    let crc := pfsCrc (lowerBytes filename)
    saveLoopRW rest
      (data ++ serBlocks file.blocks,
       directory ++ u32le crc ++ u32le offset ++ u32le file.len,
       filenames ++ [filename])

/-- Model of `ReadWriteArchive::save_to_bytes`. -/
def ReadWriteArchive.save_to_bytes (z : Zlib) (files : ReadWriteArchive) : List Nat :=
  let st := saveLoopRW files ([], u32le (files.length + 1), [])
  let offset := st.1.length + 12
  let filenames_data := write_filenames st.2.2
  let filenames_file := ReadWriteArchiveFile.deflate z filenames_data
  let data := st.1 ++ serBlocks filenames_file.blocks
  let directory :=
    st.2.1 ++ u32le FILENAMES_CRC_VALUE ++ u32le offset ++ u32le filenames_file.len
  u32le (data.length + 12) ++ [80, 70, 83, 32] ++ u32le 131072 ++ data ++ directory

/-- Model of `ReadWriteArchive::open_from_bytes` (close, then parse). -/
def ReadWriteArchive.open_from_bytes (z : Zlib) (input : List Nat) :
    RustOut ReadWriteArchive :=
  ReadWriteArchive.do_parse z input

/-- Model of `ReadWriteArchive::get`: look up the lowercased name and inflate
on demand. -/
def ReadWriteArchive.get (z : Zlib) (files : ReadWriteArchive) (in_archive_path : List Nat) :
    RustOut (List Nat) :=
  match findVal (lowerBytes in_archive_path) files with
  | some ent => ReadWriteArchiveFile.inflate z ent
  | none => .err .srcFileNotFound

/-- Model of `ReadWriteArchive::exists`. -/
def ReadWriteArchive.existsQ (files : ReadWriteArchive) (in_archive_path : List Nat) :
    RustOut Bool :=
  .ok (containsKey (lowerBytes in_archive_path) files)

/-- Model of `ReadWriteArchive::set`: deflate and insert, replacing any
existing entry. -/
def ReadWriteArchive.set (z : Zlib) (files : ReadWriteArchive)
    (in_archive_path input : List Nat) : RustOut Unit × ReadWriteArchive :=
  let lower := lowerBytes in_archive_path
  (.ok (), insertR lower (ReadWriteArchiveFile.deflate z input) files)

/-- Model of `ReadWriteArchive::remove`. -/
def ReadWriteArchive.remove (files : ReadWriteArchive) (in_archive_path : List Nat) :
    RustOut Unit × ReadWriteArchive :=
  let lower := lowerBytes in_archive_path
  let r := removeKey lower files
  match r.1 with
  | some _ => (.ok (), r.2)
  | none => (.err .srcFileNotFound, files)

/-- Model of `ReadWriteArchive::rename`. -/
def ReadWriteArchive.rename (files : ReadWriteArchive) (from_path to_path : List Nat) :
    RustOut Unit × ReadWriteArchive :=
  let lower := lowerBytes from_path
  let newLower := lowerBytes to_path
  if containsKey newLower files then (.err .destFileAlreadyExists, files)
  else
    let r := removeKey lower files
    match r.1 with
    | some f => (.ok (), insertR newLower f r.2)
    | none => (.err .srcFileNotFound, files)

/-- Model of `ReadWriteArchive::copy`: clones the source's block list. -/
def ReadWriteArchive.copy (files : ReadWriteArchive) (from_path to_path : List Nat) :
    RustOut Unit × ReadWriteArchive :=
  let lower := lowerBytes from_path
  let newLower := lowerBytes to_path
  if containsKey newLower files then (.err .destFileAlreadyExists, files)
  else
    match findVal lower files with
    | some f => (.ok (), insertR newLower ⟨f.blocks⟩ files)
    | none => (.err .srcFileNotFound, files)

/-- Model of `ReadableArchive` state: the owned buffer and the parsed map. -/
structure ReadableArchive where
  data : List Nat
  files : List (List Nat × ArchiveFile)
deriving DecidableEq, Repr

/-- Model of `ReadableArchive::open_from_bytes`. -/
def ReadableArchive.open_from_bytes (z : Zlib) (input : List Nat) :
    RustOut ReadableArchive :=
  match ReadableArchive.do_parse z input with
  | .ok files => .ok ⟨input, files⟩
  | .err e => .err e
  | .panic => .panic

/-- Model of `ReadableArchive::get`. -/
def ReadableArchive.get (z : Zlib) (a : ReadableArchive) (in_archive_path : List Nat) :
    RustOut (List Nat) :=
  match findVal (lowerBytes in_archive_path) a.files with
  | some ent => ReadableArchive.inflate_file_entry z a.data ent
  | none => .err .srcFileNotFound

/-- Model of `ReadableArchive::exists`. -/
def ReadableArchive.existsQ (a : ReadableArchive) (in_archive_path : List Nat) :
    RustOut Bool :=
  .ok (containsKey (lowerBytes in_archive_path) a.files)

/-! Lemmas about deflation. -/

/-- Specification of the chunk walk both deflate loops perform: successive
slices of exactly 8192 bytes, the last possibly shorter. -/
def chunksGo : Nat → List Nat → List (List Nat)
  | 0, _ => []
  | fuel + 1, l =>
    if l.length = 0 then []
    else if MAX_BLOCK_SIZE < l.length then l.take MAX_BLOCK_SIZE :: chunksGo fuel (l.drop MAX_BLOCK_SIZE)
    else [l]

def chunks (l : List Nat) : List (List Nat) := chunksGo l.length l

def sumInflate (bs : List Block) : Nat := (bs.map fun b => b.inflate_length).sum

/-- Wellformedness a stored block needs for its serialisation to re-parse to
itself: stored deflate length is the data length, and both length fields fit
a `u32` with a positive inflate length. -/
def BlockWF (b : Block) : Prop :=
  b.deflate_length = b.data.length ∧ b.data.length < 2 ^ 32 ∧
    1 ≤ b.inflate_length ∧ b.inflate_length < 2 ^ 32

/-! Structure of the saved byte stream. -/

/-- Concatenated block streams of the real files, in map order (writable). -/
def filesDataW (z : Zlib) : List (List Nat × List Nat) → List Nat
  | [] => []
  | (_, fdata) :: rest => WritableArchiveFile.deflate z fdata ++ filesDataW z rest

/-- Directory entries of the real files with running offsets (writable). -/
def dirEntriesW (z : Zlib) (base : Nat) : List (List Nat × List Nat) → List Nat
  | [] => []
  | (k, fdata) :: rest =>
    u32le (pfsCrc (lowerBytes k)) ++ u32le base ++ u32le fdata.length ++
      dirEntriesW z (base + (WritableArchiveFile.deflate z fdata).length) rest

/-- Directory entries of the real files as parsed triples (writable). -/
def entryTriplesW (z : Zlib) (base : Nat) : List (List Nat × List Nat) → List (Nat × Nat × Nat)
  | [] => []
  | (k, fdata) :: rest =>
    (pfsCrc (lowerBytes k), base, fdata.length) ::
      entryTriplesW z (base + (WritableArchiveFile.deflate z fdata).length) rest

/-- Data section of a saved writable archive: the real files' block streams
followed by the deflated filename table. -/
def dataSectionW (z : Zlib) (files : List (List Nat × List Nat)) : List Nat :=
  filesDataW z files ++ WritableArchiveFile.deflate z (write_filenames (files.map Prod.fst))

/-- Directory section of a saved writable archive: entry count, real entries,
sentinel entry. -/
def dirSectionW (z : Zlib) (files : List (List Nat × List Nat)) : List Nat :=
  u32le (files.length + 1) ++ dirEntriesW z 12 files ++
    u32le FILENAMES_CRC_VALUE ++ u32le ((filesDataW z files).length + 12) ++
    u32le (write_filenames (files.map Prod.fst)).length

/-- Concatenated block streams of the real files, in map order (read-write). -/
def filesDataRW : List (List Nat × ReadWriteArchiveFile) → List Nat
  | [] => []
  | (_, f) :: rest => serBlocks f.blocks ++ filesDataRW rest

/-- Directory entries of the real files with running offsets (read-write). -/
def dirEntriesRW (base : Nat) : List (List Nat × ReadWriteArchiveFile) → List Nat
  | [] => []
  | (k, f) :: rest =>
    u32le (pfsCrc (lowerBytes k)) ++ u32le base ++ u32le f.len ++
      dirEntriesRW (base + (serBlocks f.blocks).length) rest

/-- Data section of a saved read-write archive. -/
def dataSectionRW (z : Zlib) (files : List (List Nat × ReadWriteArchiveFile)) : List Nat :=
  filesDataRW files ++
    serBlocks (ReadWriteArchiveFile.deflate z (write_filenames (files.map Prod.fst))).blocks

/-- Directory section of a saved read-write archive. -/
def dirSectionRW (z : Zlib) (files : List (List Nat × ReadWriteArchiveFile)) : List Nat :=
  u32le (files.length + 1) ++ dirEntriesRW 12 files ++
    u32le FILENAMES_CRC_VALUE ++ u32le ((filesDataRW files).length + 12) ++
    u32le (ReadWriteArchiveFile.deflate z (write_filenames (files.map Prod.fst))).len

/-! Parsing a saved archive.  The emit loop writes, for each entry (real
files then the filename table), a block stream into the data section and a
`(crc, offset, size)` triple into the directory; the following definitions
describe that layout uniformly over a list of `(crc, raw bytes)` pairs. -/

/-- The `(crc, raw bytes)` pairs a writable archive emits: the real files
keyed by the CRC of their lowercased names, then the filename table keyed by
the sentinel CRC. -/
def crcFilesW (files : List (List Nat × List Nat)) : List (Nat × List Nat) :=
  (files.map fun kd => (pfsCrc (lowerBytes kd.1), kd.2)) ++
    [(FILENAMES_CRC_VALUE, write_filenames (files.map Prod.fst))]

def filesDataG (z : Zlib) : List (Nat × List Nat) → List Nat
  | [] => []
  | (_, raw) :: rest => WritableArchiveFile.deflate z raw ++ filesDataG z rest

def dirEntriesG (z : Zlib) (base : Nat) : List (Nat × List Nat) → List Nat
  | [] => []
  | (c, raw) :: rest =>
    u32le c ++ u32le base ++ u32le raw.length ++
      dirEntriesG z (base + (WritableArchiveFile.deflate z raw).length) rest

def entryTriplesG (z : Zlib) (base : Nat) : List (Nat × List Nat) → List (Nat × Nat × Nat)
  | [] => []
  | (c, raw) :: rest =>
    (c, base, raw.length) ::
      entryTriplesG z (base + (WritableArchiveFile.deflate z raw).length) rest

/-- Wellformedness of a writable archive under which the save/parse
round-trip is exact: the keys' CRCs are pairwise distinct and differ from the
sentinel (the Rust code offers no protection against CRC collisions), keys
are lowercase valid UTF-8 (as `set` guarantees), and all length fields fit a
`u32`. -/
def SaveWF (z : Zlib) (files : WritableArchive) : Prop :=
  ((files.map fun kd => pfsCrc kd.1).Nodup)
  ∧ (∀ kd ∈ files, pfsCrc kd.1 ≠ FILENAMES_CRC_VALUE)
  ∧ (∀ kd ∈ files, lowerBytes kd.1 = kd.1)
  ∧ (∀ kd ∈ files, validUTF8 kd.1 = true)
  ∧ (∀ kd ∈ files, kd.1.length + 1 < 2 ^ 32)
  ∧ (∀ kd ∈ files, (kd.2 : List Nat).length < 2 ^ 32)
  ∧ files.length + 1 < 2 ^ 32
  ∧ (write_filenames (files.map Prod.fst)).length < 2 ^ 32
  ∧ (dataSectionW z files).length + 12 < 2 ^ 32

instance (z : Zlib) (files : WritableArchive) : Decidable (SaveWF z files) := by
  unfold SaveWF
  infer_instance

/-! Readable-archive layout: parsed blocks carry absolute offsets. -/

/-- The readable parser's view of a serialised block stream starting at
absolute offset `off`: each block's data begins 8 bytes after its header. -/
def offsetBlocks : List Block → Nat → List ArchiveFileBlock
  | [], _ => []
  | b :: rest, off =>
    ⟨b.deflate_length, b.inflate_length, off + 8⟩ ::
      offsetBlocks rest (off + b.deflate_length + 8)

/-- The crc-keyed map the readable entry loop builds from a saved layout. -/
def entryFilesR (z : Zlib) (base : Nat) : List (Nat × List Nat) → List (Nat × ArchiveFile)
  | [] => []
  | (c, raw) :: rest =>
    (c, ⟨raw.length, offsetBlocks (ReadWriteArchiveFile.deflate z raw).blocks base⟩) ::
      entryFilesR z (base + (WritableArchiveFile.deflate z raw).length) rest

/-- The name-keyed map the readable parser resolves a saved writable archive
to. -/
def entryFilesRNamed (z : Zlib) (base : Nat) :
    List (List Nat × List Nat) → List (List Nat × ArchiveFile)
  | [] => []
  | (k, raw) :: rest =>
    (k, ⟨raw.length, offsetBlocks (ReadWriteArchiveFile.deflate z raw).blocks base⟩) ::
      entryFilesRNamed z (base + (WritableArchiveFile.deflate z raw).length) rest

/-! Reachability by the mutating operations (no open), for the key-case
invariant. -/

/-- Writable archives reachable via `new`/`close`/`set`/`remove`/`rename`/
`copy`. -/
inductive WReach : WritableArchive → Prop
  | new : WReach []
  | close (a : WritableArchive) : WReach a → WReach []
  | set (a : WritableArchive) (k x : List Nat) : WReach a →
      WReach (WritableArchive.set a k x).2
  | remove (a : WritableArchive) (k : List Nat) : WReach a →
      WReach (WritableArchive.remove a k).2
  | rename (a : WritableArchive) (f t : List Nat) : WReach a →
      WReach (WritableArchive.rename a f t).2
  | copy (a : WritableArchive) (f t : List Nat) : WReach a →
      WReach (WritableArchive.copy a f t).2

/-- Read-write archives reachable via the mutating operations. -/
inductive RWReach (z : Zlib) : ReadWriteArchive → Prop
  | new : RWReach z []
  | close (a : ReadWriteArchive) : RWReach z a → RWReach z []
  | set (a : ReadWriteArchive) (k x : List Nat) : RWReach z a →
      RWReach z (ReadWriteArchive.set z a k x).2
  | remove (a : ReadWriteArchive) (k : List Nat) : RWReach z a →
      RWReach z (ReadWriteArchive.remove a k).2
  | rename (a : ReadWriteArchive) (f t : List Nat) : RWReach z a →
      RWReach z (ReadWriteArchive.rename a f t).2
  | copy (a : ReadWriteArchive) (f t : List Nat) : RWReach z a →
      RWReach z (ReadWriteArchive.copy a f t).2

/-- Every key of the map is lowercase-invariant. -/
def KeysLower {α : Type} (files : List (List Nat × α)) : Prop :=
  ∀ p ∈ files, lowerBytes p.1 = p.1

/-! Concrete inputs used by the claim counterexamples and witnesses. -/

/-- First of two distinct lowercase names with the same PFS CRC
(0xF94ADD96). -/
def cexN1 : List Nat := [109, 106, 114, 118, 104, 108, 105, 122]

/-- Second of two distinct lowercase names with the same PFS CRC. -/
def cexN2 : List Nat := [104, 118, 121, 102, 104, 107, 102, 109]

/-- Hand-built archive whose filename table holds the capitalised name
`Foo` and whose directory holds a matching entry (crc over `Foo`), plus the
sentinel entry; one data block `[42]` at offset 12, table block at 21,
directory at 41. -/
def c3input : List Nat :=
  u32le 41 ++ [80, 70, 83, 32] ++ u32le 131072 ++
    (u32le 1 ++ u32le 1 ++ [42]) ++
    (u32le 12 ++ u32le 12 ++ write_filenames [[70, 111, 111]]) ++
    u32le 2 ++ (u32le (pfsCrc [70, 111, 111]) ++ u32le 12 ++ u32le 1) ++
    (u32le FILENAMES_CRC_VALUE ++ u32le 21 ++ u32le 12)

/-- Hand-built archive whose only entry is a sentinel FilenameTable blob that
inflates to the single byte 0xFF, which is not a decodable filename table. -/
def c8input : List Nat :=
  u32le 21 ++ [80, 70, 83, 32] ++ u32le 131072 ++
    (u32le 1 ++ u32le 1 ++ [255]) ++
    u32le 1 ++ (u32le FILENAMES_CRC_VALUE ++ u32le 12 ++ u32le 1)

/-! Theorems. -/

theorem le_u32_append (n : Nat) (rest : List Nat) :
    le_u32 (u32le n ++ rest) = .ok (n % 2 ^ 32, rest) := by
  simp only [u32le, List.cons_append, List.nil_append, le_u32]
  have h : n % 256 + 256 * (n / 256 % 256) + 2 ^ 16 * (n / 2 ^ 16 % 256) +
      2 ^ 24 * (n / 2 ^ 24 % 256) = n % 2 ^ 32 := by omega
  rw [h]

theorem le_u32_append_of_lt {n : Nat} (h : n < 2 ^ 32) (rest : List Nat) :
    le_u32 (u32le n ++ rest) = .ok (n, rest) := by
  rw [le_u32_append, Nat.mod_eq_of_lt h]

theorem lowerByte_idem (b : Nat) : lowerByte (lowerByte b) = lowerByte b := by
  by_cases h : 65 ≤ b ∧ b ≤ 90
  · simp only [lowerByte, if_pos h]
    rw [if_neg (by omega)]
  · simp only [lowerByte, if_neg h]

theorem lowerBytes_idem (s : List Nat) : lowerBytes (lowerBytes s) = lowerBytes s := by
  simp only [lowerBytes, List.map_map]
  apply List.map_congr_left
  intro b _
  exact lowerByte_idem b

theorem crcStep_lt (c : Nat) : crcStep c < 2 ^ 32 := by
  unfold crcStep
  split
  · exact Nat.xor_lt_two_pow (Nat.mod_lt _ (by norm_num)) (by norm_num)
  · exact Nat.mod_lt _ (by norm_num)

theorem crcByte_lt (c b : Nat) : crcByte c b < 2 ^ 32 := crcStep_lt _

theorem crcBytes_lt (s : List Nat) : crcBytes s < 2 ^ 32 := by
  unfold crcBytes
  induction s using List.reverseRecOn with
  | nil => norm_num
  | append_singleton l b _ => rw [List.foldl_append, List.foldl_cons, List.foldl_nil]; exact crcByte_lt _ _

theorem pfsCrc_lt (name : List Nat) : pfsCrc name < 2 ^ 32 := crcBytes_lt _

/-- First verification vector from constants.rs: crc("innch0003.bmp"). -/
theorem pfsCrc_vector_innch : pfsCrc [105, 110, 110, 99, 104, 48, 48, 48, 51, 46, 98, 109, 112] = 0xd32da54a := by decide

/-- Second verification vector from constants.rs: crc("innhe0004.bmp"). -/
theorem pfsCrc_vector_innhe : pfsCrc [105, 110, 110, 104, 101, 48, 48, 48, 52, 46, 98, 109, 112] = 0xd33312a3 := by decide

/-- Third verification vector from constants.rs: crc("beahe0204.bmp"). -/
theorem pfsCrc_vector_beahe : pfsCrc [98, 101, 97, 104, 101, 48, 50, 48, 52, 46, 98, 109, 112] = 0xd46b03a5 := by decide

/-- ASCII byte strings are valid UTF-8. -/
theorem validUTF8_of_ascii (l : List Nat) (h : ∀ b ∈ l, b < 128) : validUTF8 l = true := by
  unfold validUTF8
  induction l with
  | nil => rfl
  | cons b rest ih =>
    have hb : b < 128 := h b (by simp)
    simp only [validUTF8Go, if_pos hb]
    exact ih fun x hx => h x (by simp [hx])

theorem ReadWriteArchiveFile.len_eq (f : ReadWriteArchiveFile) :
    f.len = sumInflate f.blocks := by
  have h : ∀ (bs : List Block) (n : Nat),
      bs.foldl (fun acc b => acc + b.inflate_length) n = n + sumInflate bs := by
    intro bs
    induction bs with
    | nil => intro n; simp [sumInflate]
    | cons b rest ih =>
      intro n
      simp only [List.foldl_cons, ih, sumInflate, List.map_cons, List.sum_cons]
      omega
  simpa using h f.blocks 0

theorem deflateGo_nil (z : Zlib) (fuel : Nat) : deflateGo z fuel [] = [] := by
  cases fuel <;> simp [deflateGo]

theorem deflateGo_eq_chunks (z : Zlib) :
    ∀ (fuel : Nat) (l : List Nat),
      deflateGo z fuel l =
        (chunksGo fuel l).map fun c => ⟨(z.compress c).length, c.length, z.compress c⟩ := by
  intro fuel
  induction fuel with
  | zero => intro l; simp [deflateGo, chunksGo]
  | succ n ih =>
    intro l
    by_cases h0 : l.length = 0
    · simp [deflateGo, chunksGo, h0]
    · by_cases hbig : MAX_BLOCK_SIZE < l.length
      · simp only [deflateGo, chunksGo, if_neg h0, if_pos hbig, List.map_cons, ih]
        congr 2
        simp only [List.length_take]
        omega
      · simp only [deflateGo, chunksGo, if_neg h0, if_neg hbig, List.map_cons, List.map_nil]
        rw [List.take_length, List.drop_length, deflateGo_nil]

theorem ReadWriteArchiveFile.deflate_eq_chunks (z : Zlib) (input : List Nat) :
    (ReadWriteArchiveFile.deflate z input).blocks =
      (chunks input).map fun c => ⟨(z.compress c).length, c.length, z.compress c⟩ :=
  deflateGo_eq_chunks z input.length input

theorem chunksGo_mem_length (fuel : Nat) :
    ∀ l : List Nat, ∀ c ∈ chunksGo fuel l, 1 ≤ c.length ∧ c.length ≤ MAX_BLOCK_SIZE := by
  induction fuel with
  | zero => intro l c hc; simp [chunksGo] at hc
  | succ n ih =>
    intro l c hc
    by_cases h0 : l.length = 0
    · simp [chunksGo, h0] at hc
    · by_cases hbig : MAX_BLOCK_SIZE < l.length
      · simp only [chunksGo, if_neg h0, if_pos hbig, List.mem_cons] at hc
        rcases hc with hc | hc
        · subst hc
          simp only [List.length_take]
          unfold MAX_BLOCK_SIZE
          omega
        · exact ih _ c hc
      · simp only [chunksGo, if_neg h0, if_neg hbig, List.mem_singleton] at hc
        subst hc
        omega

theorem chunksGo_sum (fuel : Nat) :
    ∀ l : List Nat, l.length ≤ fuel → ((chunksGo fuel l).map List.length).sum = l.length := by
  induction fuel with
  | zero =>
    intro l h
    have : l.length = 0 := by omega
    simp [chunksGo, this]
  | succ n ih =>
    intro l h
    by_cases h0 : l.length = 0
    · simp [chunksGo, h0]
    · by_cases hbig : MAX_BLOCK_SIZE < l.length
      · have hrec := ih (l.drop MAX_BLOCK_SIZE) (by simp [MAX_BLOCK_SIZE]; omega)
        simp only [chunksGo, if_neg h0, if_pos hbig, List.map_cons, List.sum_cons, hrec,
          List.length_take, List.length_drop]
        omega
      · simp only [chunksGo, if_neg h0, if_pos hbig, if_neg hbig, List.map_cons, List.map_nil,
          List.sum_cons, List.sum_nil]
        omega

theorem chunksGo_dropLast (fuel : Nat) :
    ∀ l : List Nat, ∀ c ∈ (chunksGo fuel l).dropLast, c.length = MAX_BLOCK_SIZE := by
  induction fuel with
  | zero => intro l c hc; simp [chunksGo] at hc
  | succ n ih =>
    intro l c hc
    by_cases h0 : l.length = 0
    · simp [chunksGo, h0] at hc
    · by_cases hbig : MAX_BLOCK_SIZE < l.length
      · simp only [chunksGo, if_neg h0, if_pos hbig] at hc
        rcases hr : chunksGo n (l.drop MAX_BLOCK_SIZE) with _ | ⟨a, t⟩
        · rw [hr] at hc
          simp [List.dropLast_single] at hc
        · rw [hr, List.dropLast_cons_of_ne_nil (by simp), List.mem_cons] at hc
          rcases hc with hc | hc
          · subst hc
            have h8 : MAX_BLOCK_SIZE = 8192 := rfl
            simp only [List.length_take, h8] at hbig ⊢
            omega
          · exact ih (l.drop MAX_BLOCK_SIZE) c (by rw [hr]; exact hc)
      · have hl : l ≠ [] := fun he => h0 (by simp [he])
        simp [chunksGo, if_neg h0, if_neg hbig, hl] at hc

theorem chunksGo_flatten (fuel : Nat) :
    ∀ l : List Nat, l.length ≤ fuel → (chunksGo fuel l).flatten = l := by
  induction fuel with
  | zero =>
    intro l h
    have h0 : l.length = 0 := by omega
    simp [chunksGo, h0, List.length_eq_zero.mp h0]
  | succ n ih =>
    intro l h
    by_cases h0 : l.length = 0
    · simp [chunksGo, h0, List.length_eq_zero.mp h0]
    · have hl : l ≠ [] := fun he => h0 (by simp [he])
      by_cases hbig : MAX_BLOCK_SIZE < l.length
      · have hrec := ih (l.drop MAX_BLOCK_SIZE) (by simp [MAX_BLOCK_SIZE]; omega)
        simp [chunksGo, if_neg h0, if_pos hbig, hrec, hl]
      · simp [chunksGo, if_neg h0, if_neg hbig, hl]

theorem deflate_sumInflate (z : Zlib) (input : List Nat) :
    sumInflate (ReadWriteArchiveFile.deflate z input).blocks = input.length := by
  rw [ReadWriteArchiveFile.deflate_eq_chunks, sumInflate, List.map_map]
  have : ((fun b : Block => b.inflate_length) ∘
      fun c : List Nat => (⟨(z.compress c).length, c.length, z.compress c⟩ : Block)) =
      List.length := rfl
  rw [this]
  exact chunksGo_sum input.length input le_rfl

theorem deflate_block_shape (z : Zlib) (input : List Nat) :
    ∀ b ∈ (ReadWriteArchiveFile.deflate z input).blocks,
      b.deflate_length = b.data.length ∧ 1 ≤ b.inflate_length ∧
        b.inflate_length ≤ MAX_BLOCK_SIZE := by
  intro b hb
  rw [ReadWriteArchiveFile.deflate_eq_chunks] at hb
  rcases List.mem_map.mp hb with ⟨c, hc, rfl⟩
  rcases chunksGo_mem_length input.length input c hc with ⟨h1, h2⟩
  exact ⟨rfl, h1, h2⟩

theorem inflateBlocks_deflateGo (z : Zlib) :
    ∀ (fuel : Nat) (l : List Nat), l.length ≤ fuel →
      inflateBlocks z (deflateGo z fuel l) = .ok l := by
  intro fuel
  induction fuel with
  | zero =>
    intro l h
    have h0 : l.length = 0 := by omega
    rw [List.length_eq_zero.mp h0]
    rfl
  | succ n ih =>
    intro l h
    by_cases h0 : l.length = 0
    · rw [List.length_eq_zero.mp h0]; rfl
    · set sz := if MAX_BLOCK_SIZE < l.length then MAX_BLOCK_SIZE else l.length with hsz
      have hszle : sz ≤ l.length := by rw [hsz]; split <;> omega
      have hszlen : (l.take sz).length = sz := by rw [List.length_take]; omega
      have hdrop : (l.drop sz).length ≤ n := by
        simp only [List.length_drop]
        have : 1 ≤ sz := by rw [hsz]; unfold MAX_BLOCK_SIZE; split <;> omega
        omega
      simp only [deflateGo, if_neg h0]
      rw [show (deflateGo z n (l.drop (if MAX_BLOCK_SIZE < l.length then MAX_BLOCK_SIZE
        else l.length))) = deflateGo z n (l.drop sz) from rfl]
      simp only [inflateBlocks, inflateBlock, z.round, ih (l.drop sz) hdrop]
      simp only [RustOut.bind_eq, RustOut.bind_ok, RustOut.pure_eq]
      rw [List.take_of_length_le (by omega : (l.take sz).length ≤ sz + 1)]
      rw [List.take_append_drop]

theorem ReadWriteArchiveFile.inflate_deflate (z : Zlib) (input : List Nat) :
    ReadWriteArchiveFile.inflate z (ReadWriteArchiveFile.deflate z input) = .ok input :=
  inflateBlocks_deflateGo z input.length input le_rfl

theorem wDeflateGo_eq (z : Zlib) :
    ∀ (fuel : Nat) (l : List Nat), wDeflateGo z fuel l = serBlocks (deflateGo z fuel l) := by
  intro fuel
  induction fuel with
  | zero => intro l; rfl
  | succ n ih =>
    intro l
    by_cases h0 : l.length = 0
    · simp [wDeflateGo, deflateGo, h0, serBlocks]
    · simp only [wDeflateGo, deflateGo, if_neg h0, serBlocks, serBlock, ih]
      try simp [List.append_assoc]

theorem WritableArchiveFile.deflate_eq (z : Zlib) (data : List Nat) :
    WritableArchiveFile.deflate z data = serBlocks (ReadWriteArchiveFile.deflate z data).blocks :=
  wDeflateGo_eq z data.length data

/-! Lemmas about block-stream serialisation. -/

theorem serBlock_length (b : Block) : (serBlock b).length = 8 + b.data.length := by
  simp [serBlock]
  omega

theorem serBlocks_mem_le (bs : List Block) :
    ∀ b ∈ bs, b.data.length + 8 ≤ (serBlocks bs).length := by
  induction bs with
  | nil => intro b hb; simp at hb
  | cons x rest ih =>
    intro b hb
    rcases List.mem_cons.mp hb with rfl | hb
    · simp [serBlocks, serBlock]
      omega
    · have := ih b hb
      simp only [serBlocks, List.length_append]
      omega

theorem serBlocks_count_le (bs : List Block) : bs.length ≤ (serBlocks bs).length := by
  induction bs with
  | nil => simp [serBlocks]
  | cons x rest ih =>
    simp only [serBlocks, List.length_append, serBlock_length, List.length_cons]
    omega

/-- Parsing a serialised block stream from position `p` recovers exactly the
serialised blocks, for any fuel exceeding the block count. -/
theorem parseBlocksGo_ser (sub : List Nat) :
    ∀ (bs : List Block) (fuel p acc : Nat) (post : List Nat),
      (∀ b ∈ bs, BlockWF b) →
      sub.drop p = serBlocks bs ++ post →
      p ≤ sub.length →
      bs.length < fuel →
      parseBlocksGo sub (acc + sumInflate bs) fuel p acc = .ok bs := by
  intro bs
  induction bs with
  | nil =>
    intro fuel p acc post _ _ _ hfuel
    match fuel, hfuel with
    | fuel + 1, _ =>
      simp [parseBlocksGo, sumInflate]
  | cons b rest ih =>
    intro fuel p acc post hwf hdrop hp hfuel
    match fuel, hfuel with
    | fuel + 1, hfuel =>
      have hbwf := hwf b (by simp)
      have hrestwf : ∀ x ∈ rest, BlockWF x := fun x hx => hwf x (by simp [hx])
      have hsum : ¬ (acc + sumInflate (b :: rest) ≤ acc) := by
        have h1 : 1 ≤ b.inflate_length := hbwf.2.2.1
        simp only [sumInflate, List.map_cons, List.sum_cons]
        omega
      have hdata : b.deflate_length = b.data.length := hbwf.1
      have hdlt : b.deflate_length < 2 ^ 32 := by rw [hdata]; exact hbwf.2.1
      have hblock : parse_pfs_file_block (sub.drop p) = .ok b := by
        rw [hdrop]
        show parse_pfs_file_block (serBlock b ++ serBlocks rest ++ post) = .ok b
        have htake : (b.data ++ (serBlocks rest ++ post)).take b.deflate_length = b.data := by
          rw [hdata]
          exact List.take_left _ _
        unfold parse_pfs_file_block
        simp only [serBlock, List.append_assoc, le_u32_append_of_lt hdlt,
          le_u32_append_of_lt hbwf.2.2.2, RustOut.bind_eq, RustOut.bind_ok]
        rw [if_neg (by simp only [List.length_append]; omega), htake]
      have hlendrop : sub.length - p =
          8 + b.data.length + (serBlocks rest).length + post.length := by
        have h1 : (sub.drop p).length = sub.length - p := List.length_drop _ _
        rw [hdrop] at h1
        simp only [serBlocks, List.length_append, serBlock_length] at h1
        omega
      have hple : p + b.deflate_length + 8 ≤ sub.length := by rw [hdata]; omega
      have hdrop2 : sub.drop (p + b.deflate_length + 8) = serBlocks rest ++ post := by
        have h1 : sub.drop (p + b.deflate_length + 8) =
            (sub.drop p).drop (b.deflate_length + 8) := by
          rw [List.drop_drop]
          try congr 1
          try omega
        rw [h1, hdrop]
        show (serBlock b ++ serBlocks rest ++ post).drop (b.deflate_length + 8) = _
        rw [List.append_assoc]
        have h2 : b.deflate_length + 8 = (serBlock b).length := by
          rw [serBlock_length, hdata]
          omega
        rw [h2, List.drop_left]
      have hsz : acc + sumInflate (b :: rest) = acc + b.inflate_length + sumInflate rest := by
        simp only [sumInflate, List.map_cons, List.sum_cons]
        omega
      have hflt : rest.length < fuel := by
        simp only [List.length_cons] at hfuel
        omega
      have hrec := ih fuel (p + b.deflate_length + 8) (acc + b.inflate_length) post
        hrestwf hdrop2 hple hflt
      simp only [parseBlocksGo, if_neg hsum, if_neg (Nat.not_lt.mpr hp), hblock]
      rw [hsz, hrec]

/-! Lemmas about association lists. -/

section AListLemmas

variable {κ α : Type} [DecidableEq κ]

theorem insertR_of_not_contains (k : κ) (v : α) :
    ∀ l : List (κ × α), containsKey k l = false → insertR k v l = l ++ [(k, v)] := by
  intro l
  induction l with
  | nil => intro _; rfl
  | cons x rest ih =>
    intro h
    simp only [containsKey, findVal] at h
    by_cases he : x.1 = k
    · rw [if_pos he] at h
      simp at h
    · rw [if_neg he] at h
      show insertR k v (x :: rest) = x :: rest ++ [(k, v)]
      rcases x with ⟨k', v'⟩
      simp only [insertR, if_neg he]
      rw [ih h]
      rfl

theorem containsKey_append (k : κ) (l₁ l₂ : List (κ × α)) :
    containsKey k (l₁ ++ l₂) = (containsKey k l₁ || containsKey k l₂) := by
  induction l₁ with
  | nil => simp [containsKey, findVal]
  | cons x rest ih =>
    rcases x with ⟨k', v'⟩
    by_cases he : k' = k
    · simp [containsKey, findVal, if_pos he]
    · simp only [List.cons_append, containsKey, findVal, if_neg he]
      exact ih

theorem findVal_append_of_not_contains (k : κ) (l₁ l₂ : List (κ × α))
    (h : containsKey k l₁ = false) : findVal k (l₁ ++ l₂) = findVal k l₂ := by
  induction l₁ with
  | nil => rfl
  | cons x rest ih =>
    rcases x with ⟨k', v'⟩
    simp only [containsKey, findVal] at h
    by_cases he : k' = k
    · rw [if_pos he] at h
      simp at h
    · rw [if_neg he] at h
      simp only [List.cons_append, findVal, if_neg he]
      exact ih h

theorem findVal_cons_self (k : κ) (v : α) (l : List (κ × α)) :
    findVal k ((k, v) :: l) = some v := by
  simp [findVal]

theorem removeKey_of_not_contains (k : κ) :
    ∀ l : List (κ × α), containsKey k l = false → removeKey k l = (none, l) := by
  intro l
  induction l with
  | nil => intro _; rfl
  | cons x rest ih =>
    intro h
    rcases x with ⟨k', v'⟩
    simp only [containsKey, findVal] at h
    by_cases he : k' = k
    · rw [if_pos he] at h
      simp at h
    · rw [if_neg he] at h
      simp only [removeKey, if_neg he, ih h]

theorem containsKey_eq_false_iff (k : κ) (l : List (κ × α)) :
    containsKey k l = false ↔ ∀ p ∈ l, p.1 ≠ k := by
  induction l with
  | nil => simp [containsKey, findVal]
  | cons x rest ih =>
    rcases x with ⟨k', v'⟩
    by_cases he : k' = k
    · simp [containsKey, findVal, if_pos he, he]
    · simp only [containsKey, findVal, if_neg he] at *
      simp only [List.mem_cons]
      constructor
      · intro h p hp
        rcases hp with rfl | hp
        · exact he
        · exact ih.mp h p hp
      · intro h
        exact ih.mpr fun p hp => h p (Or.inr hp)

end AListLemmas

/-! Filename-table roundtrip. -/

theorem parseFilenamesGo_entries :
    ∀ (names : List (List Nat)) (post : List Nat),
      (∀ n ∈ names, validUTF8 n = true ∧ n.length + 1 < 2 ^ 32) →
      parseFilenamesGo names.length (filenameEntries names ++ post) = .ok names := by
  intro names
  induction names with
  | nil => intro post _; rfl
  | cons n rest ih =>
    intro post h
    rcases h n (by simp) with ⟨hv, hlen⟩
    have hrest := ih (post) fun x hx => h x (by simp [hx])
    show parseFilenamesGo (rest.length + 1) (filenameEntry n ++ filenameEntries rest ++ post)
      = .ok (n :: rest)
    have hassoc : filenameEntry n ++ filenameEntries rest ++ post =
        u32le (n.length + 1) ++ ((n ++ [0]) ++ (filenameEntries rest ++ post)) := by
      simp [filenameEntry, List.append_assoc]
    rw [hassoc]
    have hn1 : (n ++ [0]).length = n.length + 1 := by simp
    unfold parseFilenamesGo
    simp only [le_u32_append_of_lt hlen, RustOut.bind_eq, RustOut.bind_ok]
    rw [if_neg (by simp only [List.length_append, hn1]; omega)]
    have htake : ((n ++ [0]) ++ (filenameEntries rest ++ post)).take (n.length + 1) = n ++ [0] := by
      rw [← hn1]
      exact List.take_left _ _
    have hdrop : ((n ++ [0]) ++ (filenameEntries rest ++ post)).drop (n.length + 1) =
        filenameEntries rest ++ post := by
      rw [← hn1]
      exact List.drop_left _ _
    rw [if_neg (by omega), htake, hdrop]
    have htake2 : (n ++ [0]).take (n.length + 1 - 1) = n := by
      simp
    rw [htake2, if_pos hv, hrest]
    rfl

theorem parse_filenames_write (names : List (List Nat))
    (hnames : ∀ n ∈ names, validUTF8 n = true ∧ n.length + 1 < 2 ^ 32)
    (hcount : names.length < 2 ^ 32) :
    parse_filenames (write_filenames names) = .ok names := by
  unfold parse_filenames write_filenames
  simp only [le_u32_append_of_lt hcount, RustOut.bind_eq, RustOut.bind_ok]
  have h := parseFilenamesGo_entries names [] hnames
  rw [List.append_nil] at h
  exact h

theorem saveLoopW_spec (z : Zlib) :
    ∀ (files : List (List Nat × List Nat)) (data dir : List Nat) (names : List (List Nat)),
      saveLoopW z files (data, dir, names) =
        (data ++ filesDataW z files, dir ++ dirEntriesW z (data.length + 12) files,
          names ++ files.map Prod.fst) := by
  intro files
  induction files with
  | nil => intro data dir names; simp [saveLoopW, filesDataW, dirEntriesW]
  | cons kd rest ih =>
    intro data dir names
    rcases kd with ⟨k, fdata⟩
    show saveLoopW z rest
        (data ++ WritableArchiveFile.deflate z fdata,
         dir ++ u32le (pfsCrc (lowerBytes k)) ++ u32le (data.length + 12) ++ u32le fdata.length,
         names ++ [k]) = _
    rw [ih]
    have hbase : (data ++ WritableArchiveFile.deflate z fdata).length + 12 =
        data.length + 12 + (WritableArchiveFile.deflate z fdata).length := by
      simp [List.length_append]
      omega
    rw [hbase]
    simp [filesDataW, dirEntriesW, List.append_assoc]

theorem saveW_decomp (z : Zlib) (files : List (List Nat × List Nat)) :
    WritableArchive.save_to_bytes z files =
      u32le ((dataSectionW z files).length + 12) ++ [80, 70, 83, 32] ++ u32le 131072 ++
        dataSectionW z files ++ dirSectionW z files := by
  unfold WritableArchive.save_to_bytes
  rw [saveLoopW_spec]
  simp only [List.nil_append, List.length_nil, Nat.zero_add]
  unfold dataSectionW dirSectionW
  simp [List.append_assoc]

theorem saveLoopRW_spec :
    ∀ (files : List (List Nat × ReadWriteArchiveFile)) (data dir : List Nat)
      (names : List (List Nat)),
      saveLoopRW files (data, dir, names) =
        (data ++ filesDataRW files, dir ++ dirEntriesRW (data.length + 12) files,
          names ++ files.map Prod.fst) := by
  intro files
  induction files with
  | nil => intro data dir names; simp [saveLoopRW, filesDataRW, dirEntriesRW]
  | cons kd rest ih =>
    intro data dir names
    rcases kd with ⟨k, f⟩
    show saveLoopRW rest
        (data ++ serBlocks f.blocks,
         dir ++ u32le (pfsCrc (lowerBytes k)) ++ u32le (data.length + 12) ++ u32le f.len,
         names ++ [k]) = _
    rw [ih]
    have hbase : (data ++ serBlocks f.blocks).length + 12 =
        data.length + 12 + (serBlocks f.blocks).length := by
      simp [List.length_append]
      omega
    rw [hbase]
    simp [filesDataRW, dirEntriesRW, List.append_assoc]

theorem saveRW_decomp (z : Zlib) (files : List (List Nat × ReadWriteArchiveFile)) :
    ReadWriteArchive.save_to_bytes z files =
      u32le ((dataSectionRW z files).length + 12) ++ [80, 70, 83, 32] ++ u32le 131072 ++
        dataSectionRW z files ++ dirSectionRW z files := by
  unfold ReadWriteArchive.save_to_bytes
  rw [saveLoopRW_spec]
  simp only [List.nil_append, List.length_nil, Nat.zero_add]
  unfold dataSectionRW dirSectionRW
  simp [List.append_assoc]

/-- Saving a read-write archive whose every file is the deflation of raw
bytes produces exactly the bytes the writable archive of those raw blobs
saves: the two emit paths agree. -/
theorem saveRW_eq_saveW (z : Zlib) (files : List (List Nat × List Nat)) :
    ReadWriteArchive.save_to_bytes z
        (files.map fun kd => (kd.1, ReadWriteArchiveFile.deflate z kd.2)) =
      WritableArchive.save_to_bytes z files := by
  have hfst : (files.map fun kd => (kd.1, ReadWriteArchiveFile.deflate z kd.2)).map Prod.fst =
      files.map Prod.fst := by
    simp [List.map_map]
  have hdata : ∀ fs : List (List Nat × List Nat),
      filesDataRW (fs.map fun kd => (kd.1, ReadWriteArchiveFile.deflate z kd.2)) =
        filesDataW z fs := by
    intro fs
    induction fs with
    | nil => rfl
    | cons kd rest ih =>
      simp only [List.map_cons, filesDataRW, filesDataW, ih,
        WritableArchiveFile.deflate_eq]
  have hdir : ∀ (fs : List (List Nat × List Nat)) (base : Nat),
      dirEntriesRW base (fs.map fun kd => (kd.1, ReadWriteArchiveFile.deflate z kd.2)) =
        dirEntriesW z base fs := by
    intro fs
    induction fs with
    | nil => intro base; rfl
    | cons kd rest ih =>
      intro base
      simp only [List.map_cons, dirEntriesRW, dirEntriesW, ih,
        WritableArchiveFile.deflate_eq, ReadWriteArchiveFile.len_eq, deflate_sumInflate]
  rw [saveRW_decomp, saveW_decomp]
  unfold dataSectionRW dataSectionW dirSectionRW dirSectionW
  rw [hfst, hdata files, hdir files 12, ReadWriteArchiveFile.len_eq, deflate_sumInflate,
    ← WritableArchiveFile.deflate_eq]
  simp [List.length_map]

theorem filesDataG_append (z : Zlib) (l₁ l₂ : List (Nat × List Nat)) :
    filesDataG z (l₁ ++ l₂) = filesDataG z l₁ ++ filesDataG z l₂ := by
  induction l₁ with
  | nil => rfl
  | cons cr rest ih =>
    rcases cr with ⟨c, raw⟩
    simp [filesDataG, ih, List.append_assoc]

theorem filesDataW_eq_G (z : Zlib) (files : List (List Nat × List Nat)) :
    filesDataW z files =
      filesDataG z (files.map fun kd => (pfsCrc (lowerBytes kd.1), kd.2)) := by
  induction files with
  | nil => rfl
  | cons kd rest ih =>
    rcases kd with ⟨k, fd⟩
    simp [filesDataW, filesDataG, ih]

theorem dirEntriesW_eq_G (z : Zlib) (files : List (List Nat × List Nat)) :
    ∀ base : Nat,
      dirEntriesW z base files =
        dirEntriesG z base (files.map fun kd => (pfsCrc (lowerBytes kd.1), kd.2)) := by
  induction files with
  | nil => intro base; rfl
  | cons kd rest ih =>
    intro base
    rcases kd with ⟨k, fd⟩
    simp [dirEntriesW, dirEntriesG, ih]

theorem dirEntriesG_append (z : Zlib) (l₁ : List (Nat × List Nat)) :
    ∀ (base : Nat) (l₂ : List (Nat × List Nat)),
      dirEntriesG z base (l₁ ++ l₂) =
        dirEntriesG z base l₁ ++ dirEntriesG z (base + (filesDataG z l₁).length) l₂ := by
  induction l₁ with
  | nil => intro base l₂; simp [dirEntriesG, filesDataG]
  | cons cr rest ih =>
    intro base l₂
    rcases cr with ⟨c, raw⟩
    simp only [List.cons_append, dirEntriesG, List.append_eq, ih, filesDataG,
      List.length_append, Nat.add_assoc, List.append_assoc]

/-- The data section of a saved writable archive is the generalised layout of
its `(crc, raw)` pairs. -/
theorem dataSectionW_eq_G (z : Zlib) (files : List (List Nat × List Nat)) :
    dataSectionW z files = filesDataG z (crcFilesW files) := by
  unfold dataSectionW crcFilesW
  rw [filesDataG_append, filesDataW_eq_G]
  simp [filesDataG]

/-- The directory section of a saved writable archive is the entry count
followed by the generalised entries of its `(crc, raw)` pairs. -/
theorem dirSectionW_eq_G (z : Zlib) (files : List (List Nat × List Nat)) :
    dirSectionW z files =
      u32le (files.length + 1) ++ dirEntriesG z 12 (crcFilesW files) := by
  unfold dirSectionW crcFilesW
  rw [dirEntriesG_append, dirEntriesW_eq_G z files 12]
  simp only [dirEntriesG, List.append_assoc, List.append_nil]
  rw [← filesDataW_eq_G]
  have : 12 + (filesDataW z files).length = (filesDataW z files).length + 12 := by omega
  rw [this]

theorem parseHeader_layout (d0 : Nat) (rest : List Nat) (h : d0 < 2 ^ 32) :
    parseHeader (u32le d0 ++ [80, 70, 83, 32] ++ u32le 131072 ++ rest) = .ok d0 := by
  unfold parseHeader
  rw [List.append_assoc, List.append_assoc]
  simp only [le_u32_append_of_lt h, RustOut.bind_eq, RustOut.bind_ok]
  have htag : tagPFS ([80, 70, 83, 32] ++ (u32le 131072 ++ rest)) = .ok (u32le 131072 ++ rest) := by
    simp [tagPFS]
  rw [htag]
  simp only [RustOut.bind_ok, le_u32_append_of_lt (by norm_num : (131072 : Nat) < 2 ^ 32),
    RustOut.bind_eq]
  simp

theorem parseTriples_layout (z : Zlib) :
    ∀ (all : List (Nat × List Nat)) (base : Nat) (post : List Nat),
      (∀ cr ∈ all, cr.1 < 2 ^ 32 ∧ (cr.2 : List Nat).length < 2 ^ 32) →
      base + (filesDataG z all).length < 2 ^ 32 →
      parseTriples all.length (dirEntriesG z base all ++ post) =
        .ok (entryTriplesG z base all) := by
  intro all
  induction all with
  | nil => intro base post _ _; rfl
  | cons cr rest ih =>
    intro base post hb hbase
    rcases cr with ⟨c, raw⟩
    rcases hb (c, raw) (by simp) with ⟨hc, hraw⟩
    have hbaselt : base < 2 ^ 32 := by
      simp only [filesDataG, List.length_append] at hbase
      omega
    show parseTriples (rest.length + 1)
      (u32le c ++ u32le base ++ u32le raw.length ++
        dirEntriesG z (base + (WritableArchiveFile.deflate z raw).length) rest ++ post) = _
    unfold parseTriples
    simp only [List.append_assoc, le_u32_append_of_lt hc, le_u32_append_of_lt hbaselt,
      le_u32_append_of_lt hraw, RustOut.bind_eq, RustOut.bind_ok]
    have hrec := ih (base + (WritableArchiveFile.deflate z raw).length) post
      (fun x hx => hb x (by simp [hx]))
      (by simp only [filesDataG, List.length_append] at hbase ⊢; omega)
    rw [hrec]
    rfl

theorem containsKey_singleton_false {κ α : Type} [DecidableEq κ] (k c : κ) (v : α)
    (h : c ≠ k) : containsKey k [(c, v)] = false := by
  simp [containsKey, findVal, h]

/-- Running the read-write entry loop over the directory triples of a saved
layout parses every entry's block stream back to its deflated blocks. -/
theorem entryLoopRW_layout (z : Zlib) (input : List Nat) :
    ∀ (all : List (Nat × List Nat)) (base : Nat) (post : List Nat)
      (parsed : List (Nat × ReadWriteArchiveFile)),
      input.drop base = filesDataG z all ++ post →
      base ≤ input.length →
      (filesDataG z all).length < 2 ^ 32 →
      (∀ cr ∈ all, containsKey cr.1 parsed = false) →
      (all.map Prod.fst).Nodup →
      entryLoopRW input (entryTriplesG z base all) parsed =
        .ok (parsed ++ all.map fun cr => (cr.1, ReadWriteArchiveFile.deflate z cr.2)) := by
  intro all
  induction all with
  | nil =>
    intro base post parsed _ _ _ _ _
    simp [entryTriplesG, entryLoopRW]
  | cons cr rest ih =>
    intro base post parsed hdrop hple hD hfresh hnd
    rcases cr with ⟨c, raw⟩
    set bs := (ReadWriteArchiveFile.deflate z raw).blocks with hbs
    have hser : WritableArchiveFile.deflate z raw = serBlocks bs :=
      WritableArchiveFile.deflate_eq z raw
    have hsub : input.drop base = serBlocks bs ++ (filesDataG z rest ++ post) := by
      rw [hdrop]
      simp only [filesDataG, hser, List.append_assoc]
    have hDcons : (WritableArchiveFile.deflate z raw).length +
        (filesDataG z rest).length < 2 ^ 32 := by
      simp only [filesDataG, List.length_append] at hD
      omega
    have hwf : ∀ b ∈ bs, BlockWF b := by
      intro b hb
      rcases deflate_block_shape z raw b hb with ⟨h1, h2, h3⟩
      refine ⟨h1, ?_, h2, ?_⟩
      · have := serBlocks_mem_le bs b hb
        rw [← hser] at this
        omega
      · have h8 : MAX_BLOCK_SIZE = 8192 := rfl
        rw [h8] at h3
        omega
    have hblocks : parse_pfs_file_blocks (input.drop base) raw.length = .ok bs := by
      unfold parse_pfs_file_blocks
      have hcount : bs.length < (input.drop base).length + 1 := by
        have h1 := serBlocks_count_le bs
        have h2 : (input.drop base).length = (serBlocks bs).length +
            (filesDataG z rest ++ post).length := by
          rw [hsub, List.length_append]
        omega
      have h := parseBlocksGo_ser (input.drop base) bs ((input.drop base).length + 1) 0 0
        (filesDataG z rest ++ post) hwf (by simpa using hsub) (Nat.zero_le _) hcount
      rw [deflate_sumInflate] at h
      simpa using h
    have hnotlt : ¬ input.length < base := Nat.not_lt.mpr hple
    show entryLoopRW input ((c, base, raw.length) :: entryTriplesG z
        (base + (WritableArchiveFile.deflate z raw).length) rest) parsed = _
    unfold entryLoopRW
    rw [if_neg hnotlt, hblocks]
    have hins : insertR c (⟨bs⟩ : ReadWriteArchiveFile) parsed =
        parsed ++ [(c, ReadWriteArchiveFile.deflate z raw)] := by
      rw [insertR_of_not_contains c _ parsed (hfresh (c, raw) (by simp))]
    show entryLoopRW input
        (entryTriplesG z (base + (WritableArchiveFile.deflate z raw).length) rest)
        (insertR c (⟨bs⟩ : ReadWriteArchiveFile) parsed) = _
    rw [hins]
    have hlendrop : input.length - base =
        (serBlocks bs).length + (filesDataG z rest).length + post.length := by
      have h1 : (input.drop base).length = input.length - base := List.length_drop _ _
      rw [hsub] at h1
      simp only [List.length_append] at h1
      omega
    have hple' : base + (WritableArchiveFile.deflate z raw).length ≤ input.length := by
      rw [hser]
      omega
    have hdrop' : input.drop (base + (WritableArchiveFile.deflate z raw).length) =
        filesDataG z rest ++ post := by
      have h1 : input.drop (base + (WritableArchiveFile.deflate z raw).length) =
          (input.drop base).drop (WritableArchiveFile.deflate z raw).length := by
        rw [List.drop_drop]
        try congr 1
        try omega
      rw [h1, hsub, hser]
      exact List.drop_left _ _
    have hfresh' : ∀ x ∈ rest,
        containsKey x.1 (parsed ++ [(c, ReadWriteArchiveFile.deflate z raw)]) = false := by
      intro x hx
      rw [containsKey_append]
      have h1 : containsKey x.1 parsed = false := hfresh x (by simp [hx])
      have hc : c ≠ x.1 := by
        simp only [List.map_cons, List.nodup_cons] at hnd
        intro he
        exact hnd.1 (he ▸ List.mem_map_of_mem Prod.fst hx)
      rw [h1, containsKey_singleton_false _ _ _ hc]
      rfl
    have hnd' : (rest.map Prod.fst).Nodup := by
      simp only [List.map_cons, List.nodup_cons] at hnd
      exact hnd.2
    rw [ih (base + (WritableArchiveFile.deflate z raw).length) post _ hdrop' hple'
      (by simp only [filesDataG, List.length_append] at hD; omega) hfresh' hnd']
    simp [List.append_assoc]

/-- Running the filename-matching loop over names paired with a crc-keyed map
in matching order moves every pair into the result. -/
theorem resolveLoop_layout {φ : Type} :
    ∀ (pairs : List (List Nat × φ)) (extra : List (Nat × φ)) (acc : List (List Nat × φ)),
      ((pairs.map fun p => pfsCrc p.1).Nodup) →
      (∀ p ∈ pairs, containsKey (pfsCrc p.1) extra = false) →
      (∀ p ∈ pairs, containsKey p.1 acc = false) →
      resolveLoop (pairs.map Prod.fst) ((pairs.map fun p => (pfsCrc p.1, p.2)) ++ extra) acc =
        acc ++ pairs := by
  intro pairs
  induction pairs with
  | nil => intro extra acc _ _ _; simp [resolveLoop]
  | cons p rest ih =>
    intro extra acc hnd hextra hacc
    rcases p with ⟨k, f⟩
    show resolveLoop (k :: rest.map Prod.fst)
      ((pfsCrc k, f) :: (rest.map fun p => (pfsCrc p.1, p.2)) ++ extra) acc = _
    unfold resolveLoop
    have hrem : removeKey (pfsCrc k)
        ((pfsCrc k, f) :: ((rest.map fun p => (pfsCrc p.1, p.2)) ++ extra)) =
        (some f, (rest.map fun p => (pfsCrc p.1, p.2)) ++ extra) := by
      simp [removeKey]
    rw [List.cons_append, hrem]
    have hins : insertR k f acc = acc ++ [(k, f)] :=
      insertR_of_not_contains k f acc (hacc (k, f) (by simp))
    show resolveLoop (rest.map Prod.fst) ((rest.map fun p => (pfsCrc p.1, p.2)) ++ extra)
        (insertR k f acc) = _
    rw [hins]
    have hnd' : ((rest.map fun p => pfsCrc p.1).Nodup) := by
      simp only [List.map_cons, List.nodup_cons] at hnd
      exact hnd.2
    have hextra' : ∀ x ∈ rest, containsKey (pfsCrc x.1) extra = false := fun x hx =>
      hextra x (by simp [hx])
    have hacc' : ∀ x ∈ rest, containsKey x.1 (acc ++ [(k, f)]) = false := by
      intro x hx
      rw [containsKey_append]
      have h1 : containsKey x.1 acc = false := hacc x (by simp [hx])
      have hk : k ≠ x.1 := by
        simp only [List.map_cons, List.nodup_cons] at hnd
        intro he
        refine hnd.1 ?_
        rw [he]
        exact List.mem_map_of_mem (fun p => pfsCrc p.1) hx
      rw [h1, containsKey_singleton_false _ _ _ hk]
      rfl
    rw [ih extra (acc ++ [(k, f)]) hnd' hextra' hacc']
    simp [List.append_assoc]

/-- Parsing a saved writable archive with the read-write parser recovers
exactly the archive's files, deflated, in map order. -/
theorem doParseRW_saveW (z : Zlib) (files : WritableArchive) (h : SaveWF z files) :
    ReadWriteArchive.do_parse z (WritableArchive.save_to_bytes z files) =
      .ok (files.map fun kd => (kd.1, ReadWriteArchiveFile.deflate z kd.2)) := by
  obtain ⟨hnd, hsent, hlower, hvalid, hklen, hdlen, hcount, htable, hD⟩ := h
  have hlowmap : (files.map fun kd => (pfsCrc (lowerBytes kd.1), kd.2)) =
      files.map fun kd => (pfsCrc kd.1, kd.2) :=
    List.map_congr_left fun kd hkd => by rw [hlower kd hkd]
  have hcrcmap : (files.map fun kd => pfsCrc (lowerBytes kd.1)) =
      files.map fun kd => pfsCrc kd.1 :=
    List.map_congr_left fun kd hkd => by rw [hlower kd hkd]
  have hdataG : filesDataG z (crcFilesW files) = dataSectionW z files :=
    (dataSectionW_eq_G z files).symm
  have hsentlt : FILENAMES_CRC_VALUE < 2 ^ 32 := by norm_num [FILENAMES_CRC_VALUE]
  have hallfst : (crcFilesW files).map Prod.fst =
      (files.map fun kd => pfsCrc kd.1) ++ [FILENAMES_CRC_VALUE] := by
    unfold crcFilesW
    rw [List.map_append, List.map_map]
    have : (Prod.fst ∘ fun kd : List Nat × List Nat => (pfsCrc (lowerBytes kd.1), kd.2)) =
        fun kd : List Nat × List Nat => pfsCrc (lowerBytes kd.1) := rfl
    rw [this, hcrcmap]
    rfl
  have hallnd : ((crcFilesW files).map Prod.fst).Nodup := by
    rw [hallfst, List.nodup_append]
    refine ⟨hnd, List.nodup_singleton _, ?_⟩
    intro a ha hb
    simp only [List.mem_singleton] at hb
    rcases List.mem_map.mp ha with ⟨kd, hkd, rfl⟩
    exact hsent kd hkd hb
  have hallbounds : ∀ cr ∈ crcFilesW files, cr.1 < 2 ^ 32 ∧ (cr.2 : List Nat).length < 2 ^ 32 := by
    intro cr hcr
    unfold crcFilesW at hcr
    rw [List.mem_append] at hcr
    rcases hcr with hcr | hcr
    · rcases List.mem_map.mp hcr with ⟨kd, hkd, rfl⟩
      exact ⟨pfsCrc_lt _, hdlen kd hkd⟩
    · simp only [List.mem_singleton] at hcr
      subst hcr
      exact ⟨hsentlt, htable⟩
  -- the saved byte stream, decomposed
  rw [saveW_decomp]
  have hinlen : (u32le ((dataSectionW z files).length + 12) ++ [80, 70, 83, 32] ++
      u32le 131072 ++ dataSectionW z files ++ dirSectionW z files).length =
      (dataSectionW z files).length + 12 + (dirSectionW z files).length := by
    simp [List.length_append]
    omega
  have hdropdir : (u32le ((dataSectionW z files).length + 12) ++ [80, 70, 83, 32] ++
      u32le 131072 ++ dataSectionW z files ++ dirSectionW z files).drop
        ((dataSectionW z files).length + 12) = dirSectionW z files := by
    have hgroup : u32le ((dataSectionW z files).length + 12) ++ [80, 70, 83, 32] ++
        u32le 131072 ++ dataSectionW z files ++ dirSectionW z files =
        (u32le ((dataSectionW z files).length + 12) ++ ([80, 70, 83, 32] ++
          (u32le 131072 ++ dataSectionW z files))) ++ dirSectionW z files := by
      simp [List.append_assoc]
    have hprelen : (u32le ((dataSectionW z files).length + 12) ++ ([80, 70, 83, 32] ++
        (u32le 131072 ++ dataSectionW z files))).length =
        (dataSectionW z files).length + 12 := by
      simp [List.length_append]
      omega
    rw [hgroup, ← hprelen]
    exact List.drop_left _ _
  have hdropdata : (u32le ((dataSectionW z files).length + 12) ++ [80, 70, 83, 32] ++
      u32le 131072 ++ dataSectionW z files ++ dirSectionW z files).drop 12 =
      dataSectionW z files ++ dirSectionW z files := by
    have hgroup2 : u32le ((dataSectionW z files).length + 12) ++ [80, 70, 83, 32] ++
        u32le 131072 ++ dataSectionW z files ++ dirSectionW z files =
        (u32le ((dataSectionW z files).length + 12) ++
          ([80, 70, 83, 32] ++ u32le 131072)) ++
          (dataSectionW z files ++ dirSectionW z files) := by
      simp [List.append_assoc]
    have hlen12 : (u32le ((dataSectionW z files).length + 12) ++
        ([80, 70, 83, 32] ++ u32le 131072)).length = 12 := by
      simp [List.length_append]
    rw [hgroup2, ← hlen12]
    exact List.drop_left _ _
  -- directory phase
  have hdir : parseDirectoryRW (u32le ((dataSectionW z files).length + 12) ++ [80, 70, 83, 32] ++
      u32le 131072 ++ dataSectionW z files ++ dirSectionW z files) =
      .ok ((crcFilesW files).map fun cr => (cr.1, ReadWriteArchiveFile.deflate z cr.2)) := by
    unfold parseDirectoryRW
    have hheader : parseHeader (u32le ((dataSectionW z files).length + 12) ++ [80, 70, 83, 32] ++
        u32le 131072 ++ dataSectionW z files ++ dirSectionW z files) =
        .ok ((dataSectionW z files).length + 12) := by
      have := parseHeader_layout ((dataSectionW z files).length + 12)
        (dataSectionW z files ++ dirSectionW z files) hD
      simpa [List.append_assoc] using this
    rw [hheader]
    simp only [RustOut.bind_eq, RustOut.bind_ok]
    rw [if_neg (by omega)]
    rw [hdropdir, dirSectionW_eq_G]
    have hdirG : u32le (files.length + 1) ++ dirEntriesG z 12 (crcFilesW files) =
        u32le (files.length + 1) ++ (dirEntriesG z 12 (crcFilesW files) ++ []) := by
      simp
    rw [hdirG, le_u32_append_of_lt hcount]
    simp only [RustOut.bind_eq, RustOut.bind_ok]
    have hlenall : (crcFilesW files).length = files.length + 1 := by
      unfold crcFilesW
      simp
    have htrip := parseTriples_layout z (crcFilesW files) 12 [] hallbounds
      (by rw [hdataG]; omega)
    rw [hlenall] at htrip
    rw [htrip]
    simp only [RustOut.bind_eq, RustOut.bind_ok]
    have hloop := entryLoopRW_layout z
      (u32le ((dataSectionW z files).length + 12) ++ [80, 70, 83, 32] ++
        u32le 131072 ++ dataSectionW z files ++ dirSectionW z files)
      (crcFilesW files) 12 (dirSectionW z files) []
      (by rw [hdropdata, hdataG]) (by omega) (by rw [hdataG]; omega)
      (fun cr _ => rfl) hallnd
    have hdirexp : dirSectionW z files =
        u32le (files.length + 1) ++ (dirEntriesG z 12 (crcFilesW files) ++ []) := by
      rw [dirSectionW_eq_G]
      simp
    rw [hdirexp] at hloop
    rw [hloop]
    simp
  -- resolve phase
  unfold ReadWriteArchive.do_parse
  rw [hdir]
  show resolveNames (ReadWriteArchiveFile.inflate z)
      ((crcFilesW files).map fun cr => (cr.1, ReadWriteArchiveFile.deflate z cr.2)) = _
  have hparsedall : ((crcFilesW files).map fun cr => (cr.1, ReadWriteArchiveFile.deflate z cr.2)) =
      (files.map fun kd => (pfsCrc kd.1, ReadWriteArchiveFile.deflate z kd.2)) ++
        [(FILENAMES_CRC_VALUE,
          ReadWriteArchiveFile.deflate z (write_filenames (files.map Prod.fst)))] := by
    unfold crcFilesW
    rw [List.map_append, List.map_map]
    congr 1
    refine List.map_congr_left fun kd hkd => ?_
    simp only [Function.comp_apply]
    rw [hlower kd hkd]
  rw [hparsedall]
  have hmappedfresh : containsKey FILENAMES_CRC_VALUE
      (files.map fun kd => (pfsCrc kd.1, ReadWriteArchiveFile.deflate z kd.2)) = false := by
    rw [containsKey_eq_false_iff]
    intro p hp
    rcases List.mem_map.mp hp with ⟨kd, hkd, rfl⟩
    exact hsent kd hkd
  have hfind : findVal FILENAMES_CRC_VALUE
      ((files.map fun kd => (pfsCrc kd.1, ReadWriteArchiveFile.deflate z kd.2)) ++
        [(FILENAMES_CRC_VALUE,
          ReadWriteArchiveFile.deflate z (write_filenames (files.map Prod.fst)))]) =
      some (ReadWriteArchiveFile.deflate z (write_filenames (files.map Prod.fst))) := by
    rw [findVal_append_of_not_contains _ _ _ hmappedfresh, findVal_cons_self]
  have hfn : parse_filenames (write_filenames (files.map Prod.fst)) =
      .ok (files.map Prod.fst) := by
    refine parse_filenames_write _ (fun n hn => ?_) (by simp [List.length_map]; omega)
    rcases List.mem_map.mp hn with ⟨kd, hkd, rfl⟩
    exact ⟨hvalid kd hkd, hklen kd hkd⟩
  unfold resolveNames
  simp only [hfind, ReadWriteArchiveFile.inflate_deflate, hfn]
  have hpairsfst : (files.map fun kd =>
      ((kd.1 : List Nat), ReadWriteArchiveFile.deflate z kd.2)).map Prod.fst =
      files.map Prod.fst := by
    rw [List.map_map]
    rfl
  have hpairscrc : ((files.map fun kd =>
      ((kd.1 : List Nat), ReadWriteArchiveFile.deflate z kd.2)).map fun p =>
        (pfsCrc p.1, p.2)) =
      files.map fun kd => (pfsCrc kd.1, ReadWriteArchiveFile.deflate z kd.2) := by
    rw [List.map_map]
    rfl
  have hloopres := resolveLoop_layout
    (files.map fun kd => ((kd.1 : List Nat), ReadWriteArchiveFile.deflate z kd.2))
    [(FILENAMES_CRC_VALUE,
      ReadWriteArchiveFile.deflate z (write_filenames (files.map Prod.fst)))] []
    (by rw [List.map_map]; exact hnd)
    (by
      intro p hp
      rcases List.mem_map.mp hp with ⟨kd, hkd, rfl⟩
      exact containsKey_singleton_false _ _ _ (Ne.symm (hsent kd hkd)))
    (fun p _ => rfl)
  rw [hpairsfst, hpairscrc] at hloopres
  rw [hloopres]
  simp

theorem parseBlocksGoR_ser (sub : List Nat) (offBase : Nat) :
    ∀ (bs : List Block) (fuel p acc : Nat) (post : List Nat),
      (∀ b ∈ bs, BlockWF b) →
      sub.drop p = serBlocks bs ++ post →
      p ≤ sub.length →
      bs.length < fuel →
      parseBlocksGoR sub offBase (acc + sumInflate bs) fuel p acc =
        .ok (offsetBlocks bs (offBase + p)) := by
  intro bs
  induction bs with
  | nil =>
    intro fuel p acc post _ _ _ hfuel
    match fuel, hfuel with
    | fuel + 1, _ =>
      simp [parseBlocksGoR, sumInflate, offsetBlocks]
  | cons b rest ih =>
    intro fuel p acc post hwf hdrop hp hfuel
    match fuel, hfuel with
    | fuel + 1, hfuel =>
      have hbwf := hwf b (by simp)
      have hrestwf : ∀ x ∈ rest, BlockWF x := fun x hx => hwf x (by simp [hx])
      have hsum : ¬ (acc + sumInflate (b :: rest) ≤ acc) := by
        have h1 : 1 ≤ b.inflate_length := hbwf.2.2.1
        simp only [sumInflate, List.map_cons, List.sum_cons]
        omega
      have hdata : b.deflate_length = b.data.length := hbwf.1
      have hdlt : b.deflate_length < 2 ^ 32 := by rw [hdata]; exact hbwf.2.1
      have hblock : ReadableArchive.parse_pfs_file_block (sub.drop p) (offBase + p) =
          .ok ⟨b.deflate_length, b.inflate_length, offBase + p + 8⟩ := by
        rw [hdrop]
        show ReadableArchive.parse_pfs_file_block (serBlock b ++ serBlocks rest ++ post) _ = _
        unfold ReadableArchive.parse_pfs_file_block
        simp only [serBlock, List.append_assoc, le_u32_append_of_lt hdlt,
          le_u32_append_of_lt hbwf.2.2.2, RustOut.bind_eq, RustOut.bind_ok]
        rw [if_neg (by simp only [List.length_append]; omega)]
      have hlendrop : sub.length - p =
          8 + b.data.length + (serBlocks rest).length + post.length := by
        have h1 : (sub.drop p).length = sub.length - p := List.length_drop _ _
        rw [hdrop] at h1
        simp only [serBlocks, List.length_append, serBlock_length] at h1
        omega
      have hple : p + b.deflate_length + 8 ≤ sub.length := by rw [hdata]; omega
      have hdrop2 : sub.drop (p + b.deflate_length + 8) = serBlocks rest ++ post := by
        have h1 : sub.drop (p + b.deflate_length + 8) =
            (sub.drop p).drop (b.deflate_length + 8) := by
          rw [List.drop_drop]
          try congr 1
          try omega
        rw [h1, hdrop]
        show (serBlock b ++ serBlocks rest ++ post).drop (b.deflate_length + 8) = _
        rw [List.append_assoc]
        have h2 : b.deflate_length + 8 = (serBlock b).length := by
          rw [serBlock_length, hdata]
          omega
        rw [h2, List.drop_left]
      have hsz : acc + sumInflate (b :: rest) = acc + b.inflate_length + sumInflate rest := by
        simp only [sumInflate, List.map_cons, List.sum_cons]
        omega
      have hflt : rest.length < fuel := by
        simp only [List.length_cons] at hfuel
        omega
      have hrec := ih fuel (p + b.deflate_length + 8) (acc + b.inflate_length) post
        hrestwf hdrop2 hple hflt
      simp only [parseBlocksGoR, if_neg hsum, if_neg (Nat.not_lt.mpr hp), hblock]
      rw [hsz, hrec]
      show _ = RustOut.ok (offsetBlocks (b :: rest) (offBase + p))
      simp only [offsetBlocks]
      have harith : offBase + (p + b.deflate_length + 8) = offBase + p + b.deflate_length + 8 := by
        omega
      rw [harith]

/-- The readable entry loop over the directory triples of a saved layout. -/
theorem entryLoopR_layout (z : Zlib) (input : List Nat) :
    ∀ (all : List (Nat × List Nat)) (base : Nat) (post : List Nat)
      (parsed : List (Nat × ArchiveFile)),
      input.drop base = filesDataG z all ++ post →
      base ≤ input.length →
      (filesDataG z all).length < 2 ^ 32 →
      (∀ cr ∈ all, containsKey cr.1 parsed = false) →
      (all.map Prod.fst).Nodup →
      entryLoopR input (entryTriplesG z base all) parsed =
        .ok (parsed ++ entryFilesR z base all) := by
  intro all
  induction all with
  | nil =>
    intro base post parsed _ _ _ _ _
    simp [entryTriplesG, entryLoopR, entryFilesR]
  | cons cr rest ih =>
    intro base post parsed hdrop hple hD hfresh hnd
    rcases cr with ⟨c, raw⟩
    set bs := (ReadWriteArchiveFile.deflate z raw).blocks with hbs
    have hser : WritableArchiveFile.deflate z raw = serBlocks bs :=
      WritableArchiveFile.deflate_eq z raw
    have hsub : input.drop base = serBlocks bs ++ (filesDataG z rest ++ post) := by
      rw [hdrop]
      simp only [filesDataG, hser, List.append_assoc]
    have hwf : ∀ b ∈ bs, BlockWF b := by
      intro b hb
      rcases deflate_block_shape z raw b hb with ⟨h1, h2, h3⟩
      refine ⟨h1, ?_, h2, ?_⟩
      · have := serBlocks_mem_le bs b hb
        rw [← hser] at this
        simp only [filesDataG, List.length_append] at hD
        omega
      · have h8 : MAX_BLOCK_SIZE = 8192 := rfl
        rw [h8] at h3
        omega
    have hblocks : ReadableArchive.parse_pfs_file_blocks (input.drop base) base raw.length =
        .ok (offsetBlocks bs base) := by
      unfold ReadableArchive.parse_pfs_file_blocks
      have hcount : bs.length < (input.drop base).length + 1 := by
        have h1 := serBlocks_count_le bs
        have h2 : (input.drop base).length = (serBlocks bs).length +
            (filesDataG z rest ++ post).length := by
          rw [hsub, List.length_append]
        omega
      have h := parseBlocksGoR_ser (input.drop base) base bs ((input.drop base).length + 1) 0 0
        (filesDataG z rest ++ post) hwf (by simpa using hsub) (Nat.zero_le _) hcount
      rw [deflate_sumInflate] at h
      simpa using h
    have hnotlt : ¬ input.length < base := Nat.not_lt.mpr hple
    show entryLoopR input ((c, base, raw.length) :: entryTriplesG z
        (base + (WritableArchiveFile.deflate z raw).length) rest) parsed = _
    unfold entryLoopR
    rw [if_neg hnotlt, hblocks]
    have hins : insertR c (⟨raw.length, offsetBlocks bs base⟩ : ArchiveFile) parsed =
        parsed ++ [(c, (⟨raw.length, offsetBlocks bs base⟩ : ArchiveFile))] := by
      rw [insertR_of_not_contains c _ parsed (hfresh (c, raw) (by simp))]
    show entryLoopR input
        (entryTriplesG z (base + (WritableArchiveFile.deflate z raw).length) rest)
        (insertR c (⟨raw.length, offsetBlocks bs base⟩ : ArchiveFile) parsed) = _
    rw [hins]
    have hlendrop : input.length - base =
        (serBlocks bs).length + (filesDataG z rest).length + post.length := by
      have h1 : (input.drop base).length = input.length - base := List.length_drop _ _
      rw [hsub] at h1
      simp only [List.length_append] at h1
      omega
    have hple' : base + (WritableArchiveFile.deflate z raw).length ≤ input.length := by
      rw [hser]
      omega
    have hdrop' : input.drop (base + (WritableArchiveFile.deflate z raw).length) =
        filesDataG z rest ++ post := by
      have h1 : input.drop (base + (WritableArchiveFile.deflate z raw).length) =
          (input.drop base).drop (WritableArchiveFile.deflate z raw).length := by
        rw [List.drop_drop]
        try congr 1
        try omega
      rw [h1, hsub, hser]
      exact List.drop_left _ _
    have hfresh' : ∀ x ∈ rest,
        containsKey x.1 (parsed ++ [(c, (⟨raw.length, offsetBlocks bs base⟩ : ArchiveFile))]) =
          false := by
      intro x hx
      rw [containsKey_append]
      have h1 : containsKey x.1 parsed = false := hfresh x (by simp [hx])
      have hc : c ≠ x.1 := by
        simp only [List.map_cons, List.nodup_cons] at hnd
        intro he
        exact hnd.1 (he ▸ List.mem_map_of_mem Prod.fst hx)
      rw [h1, containsKey_singleton_false _ _ _ hc]
      rfl
    have hnd' : (rest.map Prod.fst).Nodup := by
      simp only [List.map_cons, List.nodup_cons] at hnd
      exact hnd.2
    rw [ih (base + (WritableArchiveFile.deflate z raw).length) post _ hdrop' hple'
      (by simp only [filesDataG, List.length_append] at hD; omega) hfresh' hnd']
    simp [entryFilesR, List.append_assoc]

/-- Inflating a saved blob from the owned buffer by its block offsets gives
back the raw bytes. -/
theorem inflateEntryGo_layout (z : Zlib) (input : List Nat) :
    ∀ (fuel : Nat) (l : List Nat) (off : Nat) (post : List Nat),
      l.length ≤ fuel →
      input.drop off = serBlocks (deflateGo z fuel l) ++ post →
      inflateEntryGo z input (offsetBlocks (deflateGo z fuel l) off) = .ok l := by
  intro fuel
  induction fuel with
  | zero =>
    intro l off post h _
    have h0 : l.length = 0 := by omega
    rw [List.length_eq_zero.mp h0]
    rfl
  | succ n ih =>
    intro l off post h hdrop
    by_cases h0 : l.length = 0
    · rw [List.length_eq_zero.mp h0]
      rfl
    · set sz := if MAX_BLOCK_SIZE < l.length then MAX_BLOCK_SIZE else l.length with hsz
      have hszle : sz ≤ l.length := by rw [hsz]; split <;> omega
      have hsz1 : 1 ≤ sz := by rw [hsz]; unfold MAX_BLOCK_SIZE; split <;> omega
      have hszlen : (l.take sz).length = sz := by rw [List.length_take]; omega
      have hdroplen : (l.drop sz).length ≤ n := by
        simp only [List.length_drop]
        omega
      have hstep : deflateGo z (n + 1) l =
          (⟨(z.compress (l.take sz)).length, sz, z.compress (l.take sz)⟩ : Block) ::
            deflateGo z n (l.drop sz) := by
        simp only [deflateGo, if_neg h0]
      rw [hstep] at hdrop ⊢
      set cc := z.compress (l.take sz) with hcc
      have hdroplen2 : input.length - off =
          8 + cc.length + (serBlocks (deflateGo z n (l.drop sz))).length + post.length := by
        have h1 : (input.drop off).length = input.length - off := List.length_drop _ _
        rw [hdrop] at h1
        simp only [serBlocks, List.length_append, serBlock_length] at h1
        omega
      show inflateEntryGo z input
        (⟨cc.length, sz, off + 8⟩ :: offsetBlocks (deflateGo z n (l.drop sz))
          (off + cc.length + 8)) = _
      unfold inflateEntryGo
      have hguard : ¬ (input.length <
          (⟨cc.length, sz, off + 8⟩ : ArchiveFileBlock).offset +
            (⟨cc.length, sz, off + 8⟩ : ArchiveFileBlock).deflate_length) := by
        show ¬ (input.length < off + 8 + cc.length)
        omega
      rw [if_neg hguard]
      have hslice : (input.drop (off + 8)).take cc.length = cc := by
        have h1 : input.drop (off + 8) = (input.drop off).drop 8 := by
          rw [List.drop_drop]
          try congr 1
          try omega
        rw [h1, hdrop]
        simp only [serBlocks]
        have h2 : serBlock ⟨cc.length, sz, cc⟩ ++ serBlocks (deflateGo z n (l.drop sz)) ++
            post =
            (u32le cc.length ++ u32le sz) ++
              (cc ++ (serBlocks (deflateGo z n (l.drop sz)) ++ post)) := by
          simp [serBlock, List.append_assoc]
        rw [h2]
        have h3 : (8 : Nat) = (u32le cc.length ++ u32le sz).length := by simp
        rw [h3, List.drop_left]
        exact List.take_left _ _
      rw [hslice, hcc, z.round]
      have hdrop' : input.drop (off + (z.compress (l.take sz)).length + 8) =
          serBlocks (deflateGo z n (l.drop sz)) ++ post := by
        have h1 : input.drop (off + (z.compress (l.take sz)).length + 8) =
            (input.drop off).drop ((z.compress (l.take sz)).length + 8) := by
          rw [List.drop_drop]
          try congr 1
          try omega
        rw [h1, hdrop]
        simp only [serBlocks]
        have h2 : (z.compress (l.take sz)).length + 8 =
            (serBlock ⟨(z.compress (l.take sz)).length, sz, z.compress (l.take sz)⟩).length := by
          rw [serBlock_length]
          show (z.compress (l.take sz)).length + 8 = 8 + (z.compress (l.take sz)).length
          omega
        rw [List.append_assoc, h2, List.drop_left]
      have hrec := ih (l.drop sz) (off + (z.compress (l.take sz)).length + 8) post
        hdroplen hdrop'
      rw [← hcc] at hrec
      rw [hrec]
      simp only [RustOut.bind_eq, RustOut.bind_ok, RustOut.pure_eq]
      rw [List.take_of_length_le (by omega : (l.take sz).length ≤ sz + 1)]
      rw [List.take_append_drop]

theorem entryFilesR_append (z : Zlib) (l₁ : List (Nat × List Nat)) :
    ∀ (base : Nat) (l₂ : List (Nat × List Nat)),
      entryFilesR z base (l₁ ++ l₂) =
        entryFilesR z base l₁ ++ entryFilesR z (base + (filesDataG z l₁).length) l₂ := by
  induction l₁ with
  | nil => intro base l₂; simp [entryFilesR, filesDataG]
  | cons cr rest ih =>
    intro base l₂
    rcases cr with ⟨c, raw⟩
    simp only [List.cons_append, entryFilesR, List.append_eq, ih, filesDataG,
      List.length_append, Nat.add_assoc, List.append_assoc]

theorem entryFilesR_named (z : Zlib) (files : List (List Nat × List Nat)) :
    ∀ base : Nat,
      entryFilesR z base (files.map fun kd => (pfsCrc (lowerBytes kd.1), kd.2)) =
        (entryFilesRNamed z base files).map fun p => (pfsCrc (lowerBytes p.1), p.2) := by
  induction files with
  | nil => intro base; rfl
  | cons kd rest ih =>
    intro base
    rcases kd with ⟨k, raw⟩
    simp only [List.map_cons, entryFilesR, entryFilesRNamed, ih]

theorem entryFilesRNamed_fst (z : Zlib) (files : List (List Nat × List Nat)) :
    ∀ base : Nat, (entryFilesRNamed z base files).map Prod.fst = files.map Prod.fst := by
  induction files with
  | nil => intro base; rfl
  | cons kd rest ih =>
    intro base
    rcases kd with ⟨k, raw⟩
    simp only [List.map_cons, entryFilesRNamed, ih]

/-- Looking up any saved name in the readable layout map and inflating from
the buffer returns the original raw bytes. -/
theorem entryFilesRNamed_get (z : Zlib) (input : List Nat) :
    ∀ (files : List (List Nat × List Nat)) (base : Nat) (post : List Nat),
      input.drop base = filesDataW z files ++ post →
      (files.map Prod.fst).Nodup →
      ∀ k raw, (k, raw) ∈ files →
        ∃ fl, findVal k (entryFilesRNamed z base files) = some fl ∧
          inflateEntryGo z input fl.blocks = .ok raw := by
  intro files
  induction files with
  | nil =>
    intro base post _ _ k raw hmem
    simp at hmem
  | cons kd rest ih =>
    intro base post hdrop hnd k raw hmem
    rcases kd with ⟨k0, raw0⟩
    have hser : WritableArchiveFile.deflate z raw0 =
        serBlocks (ReadWriteArchiveFile.deflate z raw0).blocks :=
      WritableArchiveFile.deflate_eq z raw0
    have hsub : input.drop base =
        serBlocks (ReadWriteArchiveFile.deflate z raw0).blocks ++
          (filesDataW z rest ++ post) := by
      rw [hdrop]
      simp only [filesDataW, hser, List.append_assoc]
    rcases List.mem_cons.mp hmem with heq | hmem'
    · injection heq with hk hraw
      subst hk
      subst hraw
      refine ⟨⟨raw.length, offsetBlocks (ReadWriteArchiveFile.deflate z raw).blocks base⟩,
        ?_, ?_⟩
      · simp [entryFilesRNamed, findVal]
      · show inflateEntryGo z input
          (offsetBlocks (deflateGo z raw.length raw) base) = .ok raw
        exact inflateEntryGo_layout z input raw.length raw base (filesDataW z rest ++ post)
          le_rfl (by simpa using hsub)
    · have hk0 : k0 ≠ k := by
        simp only [List.map_cons, List.nodup_cons] at hnd
        intro he
        exact hnd.1 (he ▸ List.mem_map_of_mem Prod.fst hmem')
      have hdrop' : input.drop (base + (WritableArchiveFile.deflate z raw0).length) =
          filesDataW z rest ++ post := by
        have h1 : input.drop (base + (WritableArchiveFile.deflate z raw0).length) =
            (input.drop base).drop (WritableArchiveFile.deflate z raw0).length := by
          rw [List.drop_drop]
          try congr 1
          try omega
        rw [h1, hsub, hser]
        exact List.drop_left _ _
      have hnd' : (rest.map Prod.fst).Nodup := by
        simp only [List.map_cons, List.nodup_cons] at hnd
        exact hnd.2
      rcases ih (base + (WritableArchiveFile.deflate z raw0).length) post hdrop' hnd'
        k raw hmem' with ⟨fl, hfind, hinf⟩
      refine ⟨fl, ?_, hinf⟩
      simp only [entryFilesRNamed, findVal, if_neg hk0]
      exact hfind

/-- Parsing a saved writable archive with the read-only parser yields the
name-keyed offset map of the saved layout. -/
theorem doParseR_saveW (z : Zlib) (files : WritableArchive) (h : SaveWF z files) :
    ReadableArchive.do_parse z (WritableArchive.save_to_bytes z files) =
      .ok (entryFilesRNamed z 12 files) := by
  obtain ⟨hnd, hsent, hlower, hvalid, hklen, hdlen, hcount, htable, hD⟩ := h
  have hdataG : filesDataG z (crcFilesW files) = dataSectionW z files :=
    (dataSectionW_eq_G z files).symm
  have hsentlt : FILENAMES_CRC_VALUE < 2 ^ 32 := by norm_num [FILENAMES_CRC_VALUE]
  have hcrcmap : (files.map fun kd => pfsCrc (lowerBytes kd.1)) =
      files.map fun kd => pfsCrc kd.1 :=
    List.map_congr_left fun kd hkd => by rw [hlower kd hkd]
  have hallfst : (crcFilesW files).map Prod.fst =
      (files.map fun kd => pfsCrc kd.1) ++ [FILENAMES_CRC_VALUE] := by
    unfold crcFilesW
    rw [List.map_append, List.map_map]
    have : (Prod.fst ∘ fun kd : List Nat × List Nat => (pfsCrc (lowerBytes kd.1), kd.2)) =
        fun kd : List Nat × List Nat => pfsCrc (lowerBytes kd.1) := rfl
    rw [this, hcrcmap]
    rfl
  have hallnd : ((crcFilesW files).map Prod.fst).Nodup := by
    rw [hallfst, List.nodup_append]
    refine ⟨hnd, List.nodup_singleton _, ?_⟩
    intro a ha hb
    simp only [List.mem_singleton] at hb
    rcases List.mem_map.mp ha with ⟨kd, hkd, rfl⟩
    exact hsent kd hkd hb
  have hallbounds : ∀ cr ∈ crcFilesW files, cr.1 < 2 ^ 32 ∧ (cr.2 : List Nat).length < 2 ^ 32 := by
    intro cr hcr
    unfold crcFilesW at hcr
    rw [List.mem_append] at hcr
    rcases hcr with hcr | hcr
    · rcases List.mem_map.mp hcr with ⟨kd, hkd, rfl⟩
      exact ⟨pfsCrc_lt _, hdlen kd hkd⟩
    · simp only [List.mem_singleton] at hcr
      subst hcr
      exact ⟨hsentlt, htable⟩
  rw [saveW_decomp]
  have hinlen : (u32le ((dataSectionW z files).length + 12) ++ [80, 70, 83, 32] ++
      u32le 131072 ++ dataSectionW z files ++ dirSectionW z files).length =
      (dataSectionW z files).length + 12 + (dirSectionW z files).length := by
    simp [List.length_append]
    omega
  have hdropdir : (u32le ((dataSectionW z files).length + 12) ++ [80, 70, 83, 32] ++
      u32le 131072 ++ dataSectionW z files ++ dirSectionW z files).drop
        ((dataSectionW z files).length + 12) = dirSectionW z files := by
    have hgroup : u32le ((dataSectionW z files).length + 12) ++ [80, 70, 83, 32] ++
        u32le 131072 ++ dataSectionW z files ++ dirSectionW z files =
        (u32le ((dataSectionW z files).length + 12) ++ ([80, 70, 83, 32] ++
          (u32le 131072 ++ dataSectionW z files))) ++ dirSectionW z files := by
      simp [List.append_assoc]
    have hprelen : (u32le ((dataSectionW z files).length + 12) ++ ([80, 70, 83, 32] ++
        (u32le 131072 ++ dataSectionW z files))).length =
        (dataSectionW z files).length + 12 := by
      simp [List.length_append]
      omega
    rw [hgroup, ← hprelen]
    exact List.drop_left _ _
  have hdropdata : (u32le ((dataSectionW z files).length + 12) ++ [80, 70, 83, 32] ++
      u32le 131072 ++ dataSectionW z files ++ dirSectionW z files).drop 12 =
      dataSectionW z files ++ dirSectionW z files := by
    have hgroup2 : u32le ((dataSectionW z files).length + 12) ++ [80, 70, 83, 32] ++
        u32le 131072 ++ dataSectionW z files ++ dirSectionW z files =
        (u32le ((dataSectionW z files).length + 12) ++
          ([80, 70, 83, 32] ++ u32le 131072)) ++
          (dataSectionW z files ++ dirSectionW z files) := by
      simp [List.append_assoc]
    have hlen12 : (u32le ((dataSectionW z files).length + 12) ++
        ([80, 70, 83, 32] ++ u32le 131072)).length = 12 := by
      simp [List.length_append]
    rw [hgroup2, ← hlen12]
    exact List.drop_left _ _
  have hdir : parseDirectoryR (u32le ((dataSectionW z files).length + 12) ++ [80, 70, 83, 32] ++
      u32le 131072 ++ dataSectionW z files ++ dirSectionW z files) =
      .ok (entryFilesR z 12 (crcFilesW files)) := by
    unfold parseDirectoryR
    have hheader : parseHeader (u32le ((dataSectionW z files).length + 12) ++ [80, 70, 83, 32] ++
        u32le 131072 ++ dataSectionW z files ++ dirSectionW z files) =
        .ok ((dataSectionW z files).length + 12) := by
      have := parseHeader_layout ((dataSectionW z files).length + 12)
        (dataSectionW z files ++ dirSectionW z files) hD
      simpa [List.append_assoc] using this
    rw [hheader]
    simp only [RustOut.bind_eq, RustOut.bind_ok]
    rw [if_neg (by omega)]
    rw [hdropdir, dirSectionW_eq_G]
    have hdirG : u32le (files.length + 1) ++ dirEntriesG z 12 (crcFilesW files) =
        u32le (files.length + 1) ++ (dirEntriesG z 12 (crcFilesW files) ++ []) := by
      simp
    rw [hdirG, le_u32_append_of_lt hcount]
    simp only [RustOut.bind_eq, RustOut.bind_ok]
    have hlenall : (crcFilesW files).length = files.length + 1 := by
      unfold crcFilesW
      simp
    have htrip := parseTriples_layout z (crcFilesW files) 12 [] hallbounds
      (by rw [hdataG]; omega)
    rw [hlenall] at htrip
    rw [htrip]
    simp only [RustOut.bind_eq, RustOut.bind_ok]
    have hloop := entryLoopR_layout z
      (u32le ((dataSectionW z files).length + 12) ++ [80, 70, 83, 32] ++
        u32le 131072 ++ dataSectionW z files ++ dirSectionW z files)
      (crcFilesW files) 12 (dirSectionW z files) []
      (by rw [hdropdata, hdataG]) (by omega) (by rw [hdataG]; omega)
      (fun cr _ => rfl) hallnd
    have hdirexp : dirSectionW z files =
        u32le (files.length + 1) ++ (dirEntriesG z 12 (crcFilesW files) ++ []) := by
      rw [dirSectionW_eq_G]
      simp
    rw [hdirexp] at hloop
    rw [hloop]
    simp
  unfold ReadableArchive.do_parse
  rw [hdir]
  show resolveNames (ReadableArchive.inflate_file_entry z _)
      (entryFilesR z 12 (crcFilesW files)) = _
  have hRsplit : entryFilesR z 12 (crcFilesW files) =
      ((entryFilesRNamed z 12 files).map fun p => (pfsCrc p.1, p.2)) ++
        [(FILENAMES_CRC_VALUE,
          (⟨(write_filenames (files.map Prod.fst)).length,
            offsetBlocks (ReadWriteArchiveFile.deflate z
              (write_filenames (files.map Prod.fst))).blocks
            (12 + (filesDataW z files).length)⟩ : ArchiveFile))] := by
    unfold crcFilesW
    rw [entryFilesR_append, entryFilesR_named]
    have hnamedkeys : ∀ p ∈ entryFilesRNamed z 12 files, lowerBytes p.1 = p.1 := by
      intro p hp
      have hmem : p.1 ∈ (entryFilesRNamed z 12 files).map Prod.fst :=
        List.mem_map_of_mem Prod.fst hp
      rw [entryFilesRNamed_fst] at hmem
      rcases List.mem_map.mp hmem with ⟨kd, hkd, hfst⟩
      rw [← hfst]
      exact hlower kd hkd
    have hcongr : ((entryFilesRNamed z 12 files).map fun p => (pfsCrc (lowerBytes p.1), p.2)) =
        (entryFilesRNamed z 12 files).map fun p => (pfsCrc p.1, p.2) :=
      List.map_congr_left fun p hp => by rw [hnamedkeys p hp]
    rw [hcongr]
    congr 1
    rw [← filesDataW_eq_G]
    simp [entryFilesR]
  rw [hRsplit]
  have hmappedfresh : containsKey FILENAMES_CRC_VALUE
      ((entryFilesRNamed z 12 files).map fun p => (pfsCrc p.1, p.2)) = false := by
    rw [containsKey_eq_false_iff]
    intro p hp
    rcases List.mem_map.mp hp with ⟨q, hq, rfl⟩
    have hmem : q.1 ∈ (entryFilesRNamed z 12 files).map Prod.fst :=
      List.mem_map_of_mem Prod.fst hq
    rw [entryFilesRNamed_fst] at hmem
    rcases List.mem_map.mp hmem with ⟨kd, hkd, hfst⟩
    show pfsCrc q.1 ≠ FILENAMES_CRC_VALUE
    rw [← hfst]
    exact hsent kd hkd
  have hfind : findVal FILENAMES_CRC_VALUE
      (((entryFilesRNamed z 12 files).map fun p => (pfsCrc p.1, p.2)) ++
        [(FILENAMES_CRC_VALUE,
          (⟨(write_filenames (files.map Prod.fst)).length,
            offsetBlocks (ReadWriteArchiveFile.deflate z
              (write_filenames (files.map Prod.fst))).blocks
            (12 + (filesDataW z files).length)⟩ : ArchiveFile))]) =
      some (⟨(write_filenames (files.map Prod.fst)).length,
        offsetBlocks (ReadWriteArchiveFile.deflate z
          (write_filenames (files.map Prod.fst))).blocks
        (12 + (filesDataW z files).length)⟩ : ArchiveFile) := by
    rw [findVal_append_of_not_contains _ _ _ hmappedfresh, findVal_cons_self]
  have hdroptable : (u32le ((dataSectionW z files).length + 12) ++ [80, 70, 83, 32] ++
      u32le 131072 ++ dataSectionW z files ++ dirSectionW z files).drop
        (12 + (filesDataW z files).length) =
      serBlocks (ReadWriteArchiveFile.deflate z
        (write_filenames (files.map Prod.fst))).blocks ++ dirSectionW z files := by
    have h1 : (u32le ((dataSectionW z files).length + 12) ++ [80, 70, 83, 32] ++
        u32le 131072 ++ dataSectionW z files ++ dirSectionW z files).drop
          (12 + (filesDataW z files).length) =
        ((u32le ((dataSectionW z files).length + 12) ++ [80, 70, 83, 32] ++
          u32le 131072 ++ dataSectionW z files ++ dirSectionW z files).drop 12).drop
            (filesDataW z files).length := by
      rw [List.drop_drop]
      try congr 1
      try omega
    rw [h1, hdropdata]
    unfold dataSectionW
    rw [WritableArchiveFile.deflate_eq, List.append_assoc]
    exact List.drop_left _ _
  have hinflate : ReadableArchive.inflate_file_entry z
      (u32le ((dataSectionW z files).length + 12) ++ [80, 70, 83, 32] ++
        u32le 131072 ++ dataSectionW z files ++ dirSectionW z files)
      (⟨(write_filenames (files.map Prod.fst)).length,
        offsetBlocks (ReadWriteArchiveFile.deflate z
          (write_filenames (files.map Prod.fst))).blocks
        (12 + (filesDataW z files).length)⟩ : ArchiveFile) =
      .ok (write_filenames (files.map Prod.fst)) := by
    unfold ReadableArchive.inflate_file_entry
    exact inflateEntryGo_layout z _ (write_filenames (files.map Prod.fst)).length
      (write_filenames (files.map Prod.fst)) (12 + (filesDataW z files).length)
      (dirSectionW z files) le_rfl hdroptable
  have hfn : parse_filenames (write_filenames (files.map Prod.fst)) =
      .ok (files.map Prod.fst) := by
    refine parse_filenames_write _ (fun n hn => ?_) (by simp [List.length_map]; omega)
    rcases List.mem_map.mp hn with ⟨kd, hkd, rfl⟩
    exact ⟨hvalid kd hkd, hklen kd hkd⟩
  unfold resolveNames
  simp only [hfind, hinflate, hfn]
  have hloopres := resolveLoop_layout (entryFilesRNamed z 12 files)
    [(FILENAMES_CRC_VALUE,
      (⟨(write_filenames (files.map Prod.fst)).length,
        offsetBlocks (ReadWriteArchiveFile.deflate z
          (write_filenames (files.map Prod.fst))).blocks
        (12 + (filesDataW z files).length)⟩ : ArchiveFile))] []
    (by
      have : ((entryFilesRNamed z 12 files).map fun p => pfsCrc p.1) =
          files.map fun kd => pfsCrc kd.1 := by
        have h1 : ((entryFilesRNamed z 12 files).map fun p => pfsCrc p.1) =
            ((entryFilesRNamed z 12 files).map Prod.fst).map pfsCrc := by
          rw [List.map_map]
          rfl
        rw [h1, entryFilesRNamed_fst, List.map_map]
        rfl
      rw [this]
      exact hnd)
    (by
      intro p hp
      refine containsKey_singleton_false _ _ _ (Ne.symm ?_)
      have hmem : p.1 ∈ (entryFilesRNamed z 12 files).map Prod.fst :=
        List.mem_map_of_mem Prod.fst hp
      rw [entryFilesRNamed_fst] at hmem
      rcases List.mem_map.mp hmem with ⟨kd, hkd, hfst⟩
      rw [← hfst]
      exact hsent kd hkd)
    (fun p _ => rfl)
  rw [entryFilesRNamed_fst] at hloopres
  rw [hloopres]
  simp

/-! Remaining helper lemmas for the claim theorems. -/

section MoreAList

variable {κ α β : Type} [DecidableEq κ]

theorem findVal_insertR_self (k : κ) (v : α) :
    ∀ l : List (κ × α), findVal k (insertR k v l) = some v := by
  intro l
  induction l with
  | nil => simp [insertR, findVal]
  | cons x rest ih =>
    rcases x with ⟨k', v'⟩
    by_cases he : k' = k
    · simp [insertR, if_pos he, findVal]
    · simp [insertR, if_neg he, findVal, ih, he]

theorem containsKey_insertR_self (k : κ) (v : α) (l : List (κ × α)) :
    containsKey k (insertR k v l) = true := by
  rw [containsKey, findVal_insertR_self]
  rfl

theorem findVal_map_of_mem (f : α → β) :
    ∀ (l : List (κ × α)) (k : κ) (v : α),
      (l.map Prod.fst).Nodup → (k, v) ∈ l →
      findVal k (l.map fun p => (p.1, f p.2)) = some (f v) := by
  intro l
  induction l with
  | nil => intro k v _ hmem; simp at hmem
  | cons x rest ih =>
    intro k v hnd hmem
    rcases x with ⟨k0, v0⟩
    rcases List.mem_cons.mp hmem with heq | hmem'
    · injection heq with h1 h2
      subst h1
      subst h2
      simp [findVal]
    · have hne : k0 ≠ k := by
        simp only [List.map_cons, List.nodup_cons] at hnd
        intro he
        exact hnd.1 (he ▸ List.mem_map_of_mem Prod.fst hmem')
      have hnd' : (rest.map Prod.fst).Nodup := by
        simp only [List.map_cons, List.nodup_cons] at hnd
        exact hnd.2
      simp only [List.map_cons, findVal, if_neg hne]
      exact ih k v hnd' hmem'

theorem mem_insertR (k : κ) (v : α) :
    ∀ (l : List (κ × α)) (p : κ × α), p ∈ insertR k v l → p = (k, v) ∨ p ∈ l := by
  intro l
  induction l with
  | nil => intro p hp; simp [insertR] at hp; exact Or.inl hp
  | cons x rest ih =>
    intro p hp
    rcases x with ⟨k', v'⟩
    by_cases he : k' = k
    · rw [insertR, if_pos he] at hp
      rcases List.mem_cons.mp hp with rfl | hp
      · exact Or.inl rfl
      · exact Or.inr (by simp [hp])
    · rw [insertR, if_neg he] at hp
      rcases List.mem_cons.mp hp with rfl | hp
      · exact Or.inr (by simp)
      · rcases ih p hp with h | h
        · exact Or.inl h
        · exact Or.inr (by simp [h])

theorem mem_removeKey (k : κ) :
    ∀ (l : List (κ × α)) (p : κ × α), p ∈ (removeKey k l).2 → p ∈ l := by
  intro l
  induction l with
  | nil => intro p hp; simp [removeKey] at hp
  | cons x rest ih =>
    intro p hp
    rcases x with ⟨k', v'⟩
    by_cases he : k' = k
    · rw [removeKey] at hp
      simp only [if_pos he] at hp
      exact by simp [hp]
    · rw [removeKey] at hp
      simp only [if_neg he] at hp
      rcases List.mem_cons.mp hp with rfl | hp
      · simp
      · simp [ih p hp]

end MoreAList

theorem chunksGo_step_big (fuel : Nat) (l : List Nat) (h : MAX_BLOCK_SIZE < l.length) :
    chunksGo (fuel + 1) l = l.take MAX_BLOCK_SIZE :: chunksGo fuel (l.drop MAX_BLOCK_SIZE) := by
  have h0 : ¬ l.length = 0 := by unfold MAX_BLOCK_SIZE at h; omega
  have hl : l ≠ [] := fun he => h0 (by simp [he])
  simp [chunksGo, hl, h]

theorem chunksGo_step_small (fuel : Nat) (l : List Nat) (h0 : l.length ≠ 0)
    (h : ¬ MAX_BLOCK_SIZE < l.length) : chunksGo (fuel + 1) l = [l] := by
  have hl : l ≠ [] := fun he => h0 (by simp [he])
  simp [chunksGo, hl, h]

theorem chunks_20000 (l : List Nat) (h : l.length = 20000) :
    (chunks l).map List.length = [8192, 8192, 3616] := by
  have h8 : MAX_BLOCK_SIZE = 8192 := rfl
  unfold chunks
  rw [h]
  have e1 : chunksGo 20000 l = l.take MAX_BLOCK_SIZE :: chunksGo 19999 (l.drop MAX_BLOCK_SIZE) :=
    chunksGo_step_big 19999 l (by omega)
  have hd1 : (l.drop MAX_BLOCK_SIZE).length = 11808 := by
    simp [List.length_drop, h, h8]
  have e2 : chunksGo 19999 (l.drop MAX_BLOCK_SIZE) =
      (l.drop MAX_BLOCK_SIZE).take MAX_BLOCK_SIZE ::
        chunksGo 19998 ((l.drop MAX_BLOCK_SIZE).drop MAX_BLOCK_SIZE) :=
    chunksGo_step_big 19998 _ (by omega)
  have hd2 : ((l.drop MAX_BLOCK_SIZE).drop MAX_BLOCK_SIZE).length = 3616 := by
    simp [List.length_drop, h, h8]
  have e3 : chunksGo 19998 ((l.drop MAX_BLOCK_SIZE).drop MAX_BLOCK_SIZE) =
      [(l.drop MAX_BLOCK_SIZE).drop MAX_BLOCK_SIZE] :=
    chunksGo_step_small 19997 _ (by omega) (by omega)
  rw [e1, e2, e3]
  simp only [List.map_cons, List.map_nil, List.length_take]
  rw [hd1, hd2, h, h8]
  norm_num

theorem keysNodup_of_crcNodup (files : List (List Nat × List Nat))
    (h : (files.map fun kd => pfsCrc kd.1).Nodup) : (files.map Prod.fst).Nodup := by
  have h1 : (files.map fun kd => pfsCrc kd.1) = (files.map Prod.fst).map pfsCrc := by
    rw [List.map_map]
    rfl
  rw [h1] at h
  exact h.of_map

theorem keysLower_insertR {α : Type} (k : List Nat) (v : α) (l : List (List Nat × α))
    (hl : KeysLower l) : KeysLower (insertR (lowerBytes k) v l) := by
  intro p hp
  rcases mem_insertR (lowerBytes k) v l p hp with rfl | hp'
  · exact lowerBytes_idem k
  · exact hl p hp'

theorem keysLower_removeKey {α : Type} (k : List Nat) (l : List (List Nat × α))
    (hl : KeysLower l) : KeysLower (removeKey k l).2 :=
  fun p hp => hl p (mem_removeKey k l p hp)

theorem WReach_keysLower : ∀ a : WritableArchive, WReach a → KeysLower a := by
  intro a h
  induction h with
  | new => intro p hp; simp at hp
  | close a _ _ => intro p hp; simp at hp
  | set a k x _ ih =>
    unfold WritableArchive.set
    by_cases hc : containsKey (lowerBytes k) a = true
    · simp only [if_pos hc]
      exact ih
    · simp only [if_neg hc]
      exact keysLower_insertR k x a ih
  | remove a k _ ih =>
    unfold WritableArchive.remove
    rcases hr : (removeKey (lowerBytes k) a).1 with _ | v
    · simp only [hr]
      exact ih
    · simp only [hr]
      exact keysLower_removeKey (lowerBytes k) a ih
  | rename a f t _ ih =>
    unfold WritableArchive.rename
    by_cases hc : containsKey (lowerBytes t) a = true
    · simp only [if_pos hc]
      exact ih
    · simp only [if_neg hc]
      rcases hr : (removeKey (lowerBytes f) a).1 with _ | v
      · simp only [hr]
        exact ih
      · simp only [hr]
        exact keysLower_insertR t v _ (keysLower_removeKey (lowerBytes f) a ih)
  | copy a f t _ ih =>
    unfold WritableArchive.copy
    by_cases hc : containsKey (lowerBytes t) a = true
    · simp only [if_pos hc]
      exact ih
    · simp only [if_neg hc]
      rcases hr : findVal (lowerBytes f) a with _ | v
      · simp only [hr]
        exact ih
      · simp only [hr]
        exact keysLower_insertR t v a ih

theorem RWReach_keysLower (z : Zlib) : ∀ a : ReadWriteArchive, RWReach z a → KeysLower a := by
  intro a h
  induction h with
  | new => intro p hp; simp at hp
  | close a _ _ => intro p hp; simp at hp
  | set a k x _ ih =>
    unfold ReadWriteArchive.set
    exact keysLower_insertR k _ a ih
  | remove a k _ ih =>
    unfold ReadWriteArchive.remove
    rcases hr : (removeKey (lowerBytes k) a).1 with _ | v
    · simp only [hr]
      exact ih
    · simp only [hr]
      exact keysLower_removeKey (lowerBytes k) a ih
  | rename a f t _ ih =>
    unfold ReadWriteArchive.rename
    by_cases hc : containsKey (lowerBytes t) a = true
    · simp only [if_pos hc]
      exact ih
    · simp only [if_neg hc]
      rcases hr : (removeKey (lowerBytes f) a).1 with _ | v
      · simp only [hr]
        exact ih
      · simp only [hr]
        exact keysLower_insertR t v _ (keysLower_removeKey (lowerBytes f) a ih)
  | copy a f t _ ih =>
    unfold ReadWriteArchive.copy
    by_cases hc : containsKey (lowerBytes t) a = true
    · simp only [if_pos hc]
      exact ih
    · simp only [if_neg hc]
      rcases hr : findVal (lowerBytes f) a with _ | v
      · simp only [hr]
        exact ih
      · simp only [hr]
        exact keysLower_insertR t _ a ih

/-! Claim theorems. -/

/-- C2: the claim says every input either succeeds or returns an
`ArchiveError` and that a directory offset past the end of the buffer, a
block offset past the end, and a zero filename length field take the error
branch.  The code instead panics on all three (out-of-range slice indexing
in `do_parse`, `usize` underflow in `_parse_filenames`); only in-range
malformed inputs (for example a wrong version) produce error returns.  This
theorem evaluates the model at those failing inputs. -/

theorem c2_panics :
    ReadWriteArchive.do_parse idZ (u32le 100 ++ [80, 70, 83, 32] ++ u32le 131072) = .panic
    ∧ ReadableArchive.do_parse idZ (u32le 100 ++ [80, 70, 83, 32] ++ u32le 131072) = .panic
    ∧ parse_filenames [1, 0, 0, 0, 0, 0, 0, 0] = .panic
    ∧ ReadWriteArchive.do_parse idZ (u32le 12 ++ [80, 70, 83, 32] ++ u32le 131072 ++
        u32le 1 ++ u32le 1 ++ u32le 9999 ++ u32le 1) = .panic
    ∧ ReadableArchive.do_parse idZ (u32le 12 ++ [80, 70, 83, 32] ++ u32le 131072 ++
        u32le 1 ++ u32le 1 ++ u32le 9999 ++ u32le 1) = .panic
    ∧ ReadWriteArchive.do_parse idZ (u32le 12 ++ [80, 70, 83, 32] ++ u32le 65536 ++ u32le 1) =
        .err (.wrongVersion 65536) := by
  decide

/-- C4: both deflate paths split the input into chunks in input order, every
block except the last has inflate length exactly 8192, the inflate lengths
sum to the input length, and a 20000-byte input yields exactly the three
blocks 8192, 8192, 3616. -/
theorem c4_deflate_chunking (z : Zlib) (input : List Nat) :
    (∀ b ∈ (ReadWriteArchiveFile.deflate z input).blocks.dropLast, b.inflate_length = 8192)
    ∧ sumInflate (ReadWriteArchiveFile.deflate z input).blocks = input.length
    ∧ (ReadWriteArchiveFile.deflate z input).blocks =
        (chunks input).map (fun c => ⟨(z.compress c).length, c.length, z.compress c⟩)
    ∧ (chunks input).flatten = input
    ∧ WritableArchiveFile.deflate z input =
        serBlocks (ReadWriteArchiveFile.deflate z input).blocks
    ∧ (input.length = 20000 →
        (ReadWriteArchiveFile.deflate z input).blocks.map (fun b => b.inflate_length) =
          [8192, 8192, 3616]) := by
  refine ⟨?_, deflate_sumInflate z input, ReadWriteArchiveFile.deflate_eq_chunks z input,
    chunksGo_flatten input.length input le_rfl, WritableArchiveFile.deflate_eq z input, ?_⟩
  · intro b hb
    rw [ReadWriteArchiveFile.deflate_eq_chunks, ← List.map_dropLast] at hb
    rcases List.mem_map.mp hb with ⟨c, hc, rfl⟩
    exact chunksGo_dropLast input.length input c hc
  · intro h20
    rw [ReadWriteArchiveFile.deflate_eq_chunks, List.map_map]
    have hcomp : ((fun b : Block => b.inflate_length) ∘
        fun c : List Nat => (⟨(z.compress c).length, c.length, z.compress c⟩ : Block)) =
        List.length := rfl
    rw [hcomp]
    exact chunks_20000 input h20

/-- C4 witness: the chunking theorem applied to a concrete 20000-byte
input. -/
theorem c4_witness :
    (ReadWriteArchiveFile.deflate idZ (List.replicate 20000 0)).blocks.map
      (fun b => b.inflate_length) = [8192, 8192, 3616] :=
  (c4_deflate_chunking idZ (List.replicate 20000 0)).2.2.2.2.2
    (List.length_replicate 20000 0)

/-- C5: `WritableArchive::set` fails with `DestFileAlreadyExists` and leaves
the archive unchanged when the lowercased name is present (otherwise it
appends), while `ReadWriteArchive::set` always succeeds and replaces any
existing entry with the deflation of the new bytes. -/
theorem c5_set_semantics :
    (∀ (files : WritableArchive) (k x : List Nat),
        containsKey (lowerBytes k) files = true →
          WritableArchive.set files k x = (.err .destFileAlreadyExists, files))
    ∧ (∀ (files : WritableArchive) (k x : List Nat),
        containsKey (lowerBytes k) files = false →
          WritableArchive.set files k x = (.ok (), files ++ [(lowerBytes k, x)]))
    ∧ (∀ (z : Zlib) (files : ReadWriteArchive) (k x : List Nat),
        ReadWriteArchive.set z files k x =
          (.ok (), insertR (lowerBytes k) (ReadWriteArchiveFile.deflate z x) files)
        ∧ findVal (lowerBytes k) (ReadWriteArchive.set z files k x).2 =
            some (ReadWriteArchiveFile.deflate z x)) := by
  refine ⟨?_, ?_, ?_⟩
  · intro files k x h
    unfold WritableArchive.set
    rw [if_pos h]
  · intro files k x h
    unfold WritableArchive.set
    rw [if_neg (by rw [h]; simp), insertR_of_not_contains _ _ _ h]
  · intro z files k x
    exact ⟨rfl, findVal_insertR_self _ _ _⟩

/-- C5 witness: setting `A` over an archive already holding `a` fails with
`DestFileAlreadyExists` and leaves the archive unchanged. -/
theorem c5_witness :
    WritableArchive.set [([97], [1])] [65] [2] = (.err .destFileAlreadyExists, [([97], [1])]) :=
  c5_set_semantics.1 [([97], [1])] [65] [2] (by decide)

/-- C9 (amended): for nonempty input both deflate paths produce one or more
blocks, each (in particular the last) with inflate length in `[1, 8192]`;
the empty byte string, which `set` accepts, produces zero blocks. -/
theorem c9_last_block_bounds (z : Zlib) (input : List Nat) (h : input ≠ []) :
    (ReadWriteArchiveFile.deflate z input).blocks ≠ []
    ∧ (∀ b ∈ (ReadWriteArchiveFile.deflate z input).blocks,
        1 ≤ b.inflate_length ∧ b.inflate_length ≤ 8192)
    ∧ WritableArchiveFile.deflate z input =
        serBlocks (ReadWriteArchiveFile.deflate z input).blocks := by
  refine ⟨?_, ?_, WritableArchiveFile.deflate_eq z input⟩
  · have hlen : input.length ≠ 0 := fun he => h (List.length_eq_zero.mp he)
    rcases Nat.exists_eq_succ_of_ne_zero hlen with ⟨n, hn⟩
    rw [ReadWriteArchiveFile.deflate_eq_chunks]
    unfold chunks
    rw [hn]
    by_cases hbig : MAX_BLOCK_SIZE < input.length
    · rw [chunksGo_step_big n input hbig]
      simp
    · rw [chunksGo_step_small n input hlen hbig]
      simp
  · intro b hb
    rcases deflate_block_shape z input b hb with ⟨_, h1, h2⟩
    exact ⟨h1, h2⟩

/-- C9 counterexample: the claim says every accepted input — including the
empty byte string — is stored as one or more blocks; `set` of empty bytes
stores a blob with zero blocks. -/
theorem c9_counterexample :
    (ReadWriteArchive.set idZ [] [97] []).2 = [([97], ⟨[]⟩)]
    ∧ (ReadWriteArchiveFile.deflate idZ []).blocks = []
    ∧ ¬ (1 ≤ (ReadWriteArchiveFile.deflate idZ []).blocks.length) := by
  decide

/-- C9 witness: the amended bounds at a concrete one-byte input. -/
theorem c9_witness :
    (ReadWriteArchiveFile.deflate idZ [7]).blocks ≠ []
    ∧ ∀ b ∈ (ReadWriteArchiveFile.deflate idZ [7]).blocks,
        1 ≤ b.inflate_length ∧ b.inflate_length ≤ 8192 := by
  have h := c9_last_block_bounds idZ [7] (by decide)
  exact ⟨h.1, h.2.1⟩

/-- C10: renaming onto a name whose lowercase form is already a key — in
particular onto another capitalisation of the source's own name — fails with
`DestFileAlreadyExists` and leaves the archive unchanged, because the
destination check runs before the source lookup. -/
theorem c10_rename_to_own_capitalisation :
    (∀ (a : WritableArchive) (f t : List Nat),
        lowerBytes f = lowerBytes t → containsKey (lowerBytes t) a = true →
        WritableArchive.rename a f t = (.err .destFileAlreadyExists, a))
    ∧ (∀ (a : ReadWriteArchive) (f t : List Nat),
        lowerBytes f = lowerBytes t → containsKey (lowerBytes t) a = true →
        ReadWriteArchive.rename a f t = (.err .destFileAlreadyExists, a)) := by
  constructor
  · intro a f t _ hc
    unfold WritableArchive.rename
    rw [if_pos hc]
  · intro a f t _ hc
    unfold ReadWriteArchive.rename
    rw [if_pos hc]

/-- C10 witness: renaming `A` to `a` in an archive holding `a` fails with
`DestFileAlreadyExists` and changes nothing. -/
theorem c10_witness :
    WritableArchive.rename [([97], [5])] [65] [97] =
      (.err .destFileAlreadyExists, [([97], [5])]) :=
  c10_rename_to_own_capitalisation.1 [([97], [5])] [65] [97] (by decide) (by decide)

theorem findVal_eq_none {κ α : Type} [DecidableEq κ] (k : κ) (l : List (κ × α))
    (h : containsKey k l = false) : findVal k l = none := by
  unfold containsKey at h
  rcases hf : findVal k l with _ | v
  · rfl
  · rw [hf] at h
    simp at h

/-- C6: for both archive kinds, `rename` and `copy` fail with
`DestFileAlreadyExists` when the lowercased destination is a key, fail with
`SrcFileNotFound` when both are absent, leave the archive unchanged on every
error, and on success `copy` stores a value equal to the source's. -/
theorem c6_rename_copy_errors :
    (∀ (a : WritableArchive) (f t : List Nat), containsKey (lowerBytes t) a = true →
        WritableArchive.rename a f t = (.err .destFileAlreadyExists, a)
        ∧ WritableArchive.copy a f t = (.err .destFileAlreadyExists, a))
    ∧ (∀ (a : WritableArchive) (f t : List Nat), containsKey (lowerBytes t) a = false →
        containsKey (lowerBytes f) a = false →
        WritableArchive.rename a f t = (.err .srcFileNotFound, a)
        ∧ WritableArchive.copy a f t = (.err .srcFileNotFound, a))
    ∧ (∀ (a : WritableArchive) (f t : List Nat) (e : ArchiveError),
        ((WritableArchive.rename a f t).1 = .err e → (WritableArchive.rename a f t).2 = a)
        ∧ ((WritableArchive.copy a f t).1 = .err e → (WritableArchive.copy a f t).2 = a))
    ∧ (∀ (a : WritableArchive) (f t d : List Nat),
        containsKey (lowerBytes t) a = false → findVal (lowerBytes f) a = some d →
        WritableArchive.copy a f t = (.ok (), insertR (lowerBytes t) d a))
    ∧ (∀ (a : ReadWriteArchive) (f t : List Nat), containsKey (lowerBytes t) a = true →
        ReadWriteArchive.rename a f t = (.err .destFileAlreadyExists, a)
        ∧ ReadWriteArchive.copy a f t = (.err .destFileAlreadyExists, a))
    ∧ (∀ (a : ReadWriteArchive) (f t : List Nat), containsKey (lowerBytes t) a = false →
        containsKey (lowerBytes f) a = false →
        ReadWriteArchive.rename a f t = (.err .srcFileNotFound, a)
        ∧ ReadWriteArchive.copy a f t = (.err .srcFileNotFound, a))
    ∧ (∀ (a : ReadWriteArchive) (f t : List Nat) (e : ArchiveError),
        ((ReadWriteArchive.rename a f t).1 = .err e → (ReadWriteArchive.rename a f t).2 = a)
        ∧ ((ReadWriteArchive.copy a f t).1 = .err e → (ReadWriteArchive.copy a f t).2 = a))
    ∧ (∀ (a : ReadWriteArchive) (f t : List Nat) (d : ReadWriteArchiveFile),
        containsKey (lowerBytes t) a = false → findVal (lowerBytes f) a = some d →
        ReadWriteArchive.copy a f t = (.ok (), insertR (lowerBytes t) d a)) := by
  refine ⟨?_, ?_, ?_, ?_, ?_, ?_, ?_, ?_⟩
  · intro a f t h
    unfold WritableArchive.rename WritableArchive.copy
    rw [if_pos h]
    exact ⟨rfl, by rw [if_pos h]⟩
  · intro a f t ht hf
    unfold WritableArchive.rename WritableArchive.copy
    rw [if_neg (by rw [ht]; simp), removeKey_of_not_contains _ _ hf]
    refine ⟨rfl, ?_⟩
    rw [if_neg (by rw [ht]; simp), findVal_eq_none _ _ hf]
  · intro a f t e
    constructor
    · intro he
      unfold WritableArchive.rename at he ⊢
      by_cases ht : containsKey (lowerBytes t) a = true
      · rw [if_pos ht]
      · rw [if_neg (by rw [eq_false_of_ne_true ht]; simp)] at he ⊢
        rcases hr : (removeKey (lowerBytes f) a).1 with _ | v
        · simp only [hr]
        · simp only [hr] at he
          simp at he
    · intro he
      unfold WritableArchive.copy at he ⊢
      by_cases ht : containsKey (lowerBytes t) a = true
      · rw [if_pos ht]
      · rw [if_neg (by rw [eq_false_of_ne_true ht]; simp)] at he ⊢
        rcases hr : findVal (lowerBytes f) a with _ | v
        · simp only [hr]
        · simp only [hr] at he
          simp at he
  · intro a f t d ht hd
    unfold WritableArchive.copy
    rw [if_neg (by rw [ht]; simp), hd]
  · intro a f t h
    unfold ReadWriteArchive.rename ReadWriteArchive.copy
    rw [if_pos h]
    exact ⟨rfl, by rw [if_pos h]⟩
  · intro a f t ht hf
    unfold ReadWriteArchive.rename ReadWriteArchive.copy
    rw [if_neg (by rw [ht]; simp), removeKey_of_not_contains _ _ hf]
    refine ⟨rfl, ?_⟩
    rw [if_neg (by rw [ht]; simp), findVal_eq_none _ _ hf]
  · intro a f t e
    constructor
    · intro he
      unfold ReadWriteArchive.rename at he ⊢
      by_cases ht : containsKey (lowerBytes t) a = true
      · rw [if_pos ht]
      · rw [if_neg (by rw [eq_false_of_ne_true ht]; simp)] at he ⊢
        rcases hr : (removeKey (lowerBytes f) a).1 with _ | v
        · simp only [hr]
        · simp only [hr] at he
          simp at he
    · intro he
      unfold ReadWriteArchive.copy at he ⊢
      by_cases ht : containsKey (lowerBytes t) a = true
      · rw [if_pos ht]
      · rw [if_neg (by rw [eq_false_of_ne_true ht]; simp)] at he ⊢
        rcases hr : findVal (lowerBytes f) a with _ | v
        · simp only [hr]
        · simp only [hr] at he
          simp at he
  · intro a f t d ht hd
    unfold ReadWriteArchive.copy
    rw [if_neg (by rw [ht]; simp), hd]

/-- C6 witness: copying `x` onto the existing `y` fails with
`DestFileAlreadyExists` and leaves the archive unchanged. -/
theorem c6_witness :
    WritableArchive.copy [([120], [1]), ([121], [2])] [120] [121] =
      (.err .destFileAlreadyExists, [([120], [1]), ([121], [2])]) :=
  (c6_rename_copy_errors.1 [([120], [1]), ([121], [2])] [120] [121] (by decide)).2

/-- C7: every saved archive starts with
`u32(data_section_len + 12) || "PFS " || u32(131072)`, and that first `u32`
is the absolute offset of the directory footer (the entry count followed by
the entries), for both save paths. -/
theorem c7_header_layout (z : Zlib) (wfiles : WritableArchive) (rwfiles : ReadWriteArchive) :
    ((WritableArchive.save_to_bytes z wfiles).take 12 =
        u32le ((dataSectionW z wfiles).length + 12) ++ [80, 70, 83, 32] ++ u32le 131072)
    ∧ ((WritableArchive.save_to_bytes z wfiles).drop ((dataSectionW z wfiles).length + 12) =
        dirSectionW z wfiles)
    ∧ ((dataSectionW z wfiles).length + 12 < 2 ^ 32 →
        le_u32 (WritableArchive.save_to_bytes z wfiles) =
          .ok ((dataSectionW z wfiles).length + 12,
            (WritableArchive.save_to_bytes z wfiles).drop 4))
    ∧ ((ReadWriteArchive.save_to_bytes z rwfiles).take 12 =
        u32le ((dataSectionRW z rwfiles).length + 12) ++ [80, 70, 83, 32] ++ u32le 131072)
    ∧ ((ReadWriteArchive.save_to_bytes z rwfiles).drop ((dataSectionRW z rwfiles).length + 12) =
        dirSectionRW z rwfiles)
    ∧ ((dataSectionRW z rwfiles).length + 12 < 2 ^ 32 →
        le_u32 (ReadWriteArchive.save_to_bytes z rwfiles) =
          .ok ((dataSectionRW z rwfiles).length + 12,
            (ReadWriteArchive.save_to_bytes z rwfiles).drop 4)) := by
  refine ⟨?_, ?_, ?_, ?_, ?_, ?_⟩
  · rw [saveW_decomp]
    have hgroup : u32le ((dataSectionW z wfiles).length + 12) ++ [80, 70, 83, 32] ++
        u32le 131072 ++ dataSectionW z wfiles ++ dirSectionW z wfiles =
        (u32le ((dataSectionW z wfiles).length + 12) ++ ([80, 70, 83, 32] ++ u32le 131072)) ++
          (dataSectionW z wfiles ++ dirSectionW z wfiles) := by
      simp [List.append_assoc]
    have hlen12 : (u32le ((dataSectionW z wfiles).length + 12) ++
        ([80, 70, 83, 32] ++ u32le 131072)).length = 12 := by
      simp [List.length_append]
    rw [hgroup, List.take_left' hlen12]
    simp [List.append_assoc]
  · rw [saveW_decomp]
    have hgroup : u32le ((dataSectionW z wfiles).length + 12) ++ [80, 70, 83, 32] ++
        u32le 131072 ++ dataSectionW z wfiles ++ dirSectionW z wfiles =
        (u32le ((dataSectionW z wfiles).length + 12) ++ ([80, 70, 83, 32] ++
          (u32le 131072 ++ dataSectionW z wfiles))) ++ dirSectionW z wfiles := by
      simp [List.append_assoc]
    have hprelen : (u32le ((dataSectionW z wfiles).length + 12) ++ ([80, 70, 83, 32] ++
        (u32le 131072 ++ dataSectionW z wfiles))).length =
        (dataSectionW z wfiles).length + 12 := by
      simp [List.length_append]
      omega
    rw [hgroup, ← hprelen]
    exact List.drop_left _ _
  · intro h
    rw [saveW_decomp]
    have hgroup : u32le ((dataSectionW z wfiles).length + 12) ++ [80, 70, 83, 32] ++
        u32le 131072 ++ dataSectionW z wfiles ++ dirSectionW z wfiles =
        u32le ((dataSectionW z wfiles).length + 12) ++ ([80, 70, 83, 32] ++
          (u32le 131072 ++ (dataSectionW z wfiles ++ dirSectionW z wfiles))) := by
      simp [List.append_assoc]
    rw [hgroup, le_u32_append_of_lt h]
    have hlen4 : (4 : Nat) = (u32le ((dataSectionW z wfiles).length + 12)).length := by simp
    rw [hlen4, List.drop_left]
  · rw [saveRW_decomp]
    have hgroup : u32le ((dataSectionRW z rwfiles).length + 12) ++ [80, 70, 83, 32] ++
        u32le 131072 ++ dataSectionRW z rwfiles ++ dirSectionRW z rwfiles =
        (u32le ((dataSectionRW z rwfiles).length + 12) ++ ([80, 70, 83, 32] ++ u32le 131072)) ++
          (dataSectionRW z rwfiles ++ dirSectionRW z rwfiles) := by
      simp [List.append_assoc]
    have hlen12 : (u32le ((dataSectionRW z rwfiles).length + 12) ++
        ([80, 70, 83, 32] ++ u32le 131072)).length = 12 := by
      simp [List.length_append]
    rw [hgroup, List.take_left' hlen12]
    simp [List.append_assoc]
  · rw [saveRW_decomp]
    have hgroup : u32le ((dataSectionRW z rwfiles).length + 12) ++ [80, 70, 83, 32] ++
        u32le 131072 ++ dataSectionRW z rwfiles ++ dirSectionRW z rwfiles =
        (u32le ((dataSectionRW z rwfiles).length + 12) ++ ([80, 70, 83, 32] ++
          (u32le 131072 ++ dataSectionRW z rwfiles))) ++ dirSectionRW z rwfiles := by
      simp [List.append_assoc]
    have hprelen : (u32le ((dataSectionRW z rwfiles).length + 12) ++ ([80, 70, 83, 32] ++
        (u32le 131072 ++ dataSectionRW z rwfiles))).length =
        (dataSectionRW z rwfiles).length + 12 := by
      simp [List.length_append]
      omega
    rw [hgroup, ← hprelen]
    exact List.drop_left _ _
  · intro h
    rw [saveRW_decomp]
    have hgroup : u32le ((dataSectionRW z rwfiles).length + 12) ++ [80, 70, 83, 32] ++
        u32le 131072 ++ dataSectionRW z rwfiles ++ dirSectionRW z rwfiles =
        u32le ((dataSectionRW z rwfiles).length + 12) ++ ([80, 70, 83, 32] ++
          (u32le 131072 ++ (dataSectionRW z rwfiles ++ dirSectionRW z rwfiles))) := by
      simp [List.append_assoc]
    rw [hgroup, le_u32_append_of_lt h]
    have hlen4 : (4 : Nat) = (u32le ((dataSectionRW z rwfiles).length + 12)).length := by simp
    rw [hlen4, List.drop_left]

/-- C7 witness: the header facts at the empty archive. -/
theorem c7_witness :
    le_u32 (WritableArchive.save_to_bytes idZ []) =
      .ok ((dataSectionW idZ []).length + 12, (WritableArchive.save_to_bytes idZ []).drop 4) :=
  (c7_header_layout idZ [] []).2.2.1 (by decide)

/-- C8: in both parsers, when the directory parses and the sentinel blob
inflates but the filename table fails to decode (any `Parse` or `Utf8`
error), the open still succeeds with an empty map — every directory entry is
dropped; a failure while inflating the sentinel blob itself aborts the
open. -/
theorem c8_lenient_filename_table :
    (∀ (z : Zlib) (input : List Nat) (parsed : List (Nat × ReadWriteArchiveFile))
        (f : ReadWriteArchiveFile) (d : List Nat) (e : ArchiveError),
        parseDirectoryRW input = .ok parsed →
        findVal FILENAMES_CRC_VALUE parsed = some f →
        ReadWriteArchiveFile.inflate z f = .ok d →
        parse_filenames d = .err e →
        ReadWriteArchive.do_parse z input = .ok [])
    ∧ (∀ (z : Zlib) (input : List Nat) (parsed : List (Nat × ReadWriteArchiveFile))
        (f : ReadWriteArchiveFile) (e : ArchiveError),
        parseDirectoryRW input = .ok parsed →
        findVal FILENAMES_CRC_VALUE parsed = some f →
        ReadWriteArchiveFile.inflate z f = .err e →
        ReadWriteArchive.do_parse z input = .err e)
    ∧ (∀ (z : Zlib) (input : List Nat) (parsed : List (Nat × ArchiveFile))
        (f : ArchiveFile) (d : List Nat) (e : ArchiveError),
        parseDirectoryR input = .ok parsed →
        findVal FILENAMES_CRC_VALUE parsed = some f →
        ReadableArchive.inflate_file_entry z input f = .ok d →
        parse_filenames d = .err e →
        ReadableArchive.do_parse z input = .ok [])
    ∧ (∀ (z : Zlib) (input : List Nat) (parsed : List (Nat × ArchiveFile))
        (f : ArchiveFile) (e : ArchiveError),
        parseDirectoryR input = .ok parsed →
        findVal FILENAMES_CRC_VALUE parsed = some f →
        ReadableArchive.inflate_file_entry z input f = .err e →
        ReadableArchive.do_parse z input = .err e) := by
  refine ⟨?_, ?_, ?_, ?_⟩
  · intro z input parsed f d e h1 h2 h3 h4
    unfold ReadWriteArchive.do_parse
    rw [h1]
    show resolveNames (ReadWriteArchiveFile.inflate z) parsed = .ok []
    unfold resolveNames
    simp only [h2, h3, h4]
    rfl
  · intro z input parsed f e h1 h2 h3
    unfold ReadWriteArchive.do_parse
    rw [h1]
    show resolveNames (ReadWriteArchiveFile.inflate z) parsed = .err e
    unfold resolveNames
    simp only [h2, h3]
  · intro z input parsed f d e h1 h2 h3 h4
    unfold ReadableArchive.do_parse
    rw [h1]
    show resolveNames (ReadableArchive.inflate_file_entry z input) parsed = .ok []
    unfold resolveNames
    simp only [h2, h3, h4]
    rfl
  · intro z input parsed f e h1 h2 h3
    unfold ReadableArchive.do_parse
    rw [h1]
    show resolveNames (ReadableArchive.inflate_file_entry z input) parsed = .err e
    unfold resolveNames
    simp only [h2, h3]

/-- C8 witness: opening a concrete archive whose FilenameTable blob inflates
to the undecodable byte 0xFF succeeds with an empty map. -/
theorem c8_witness : ReadWriteArchive.do_parse idZ c8input = .ok [] :=
  c8_lenient_filename_table.1 idZ c8input
    [(FILENAMES_CRC_VALUE, ⟨[⟨1, 1, [255]⟩]⟩)] ⟨[⟨1, 1, [255]⟩]⟩ [255] .parseErr
    (by decide) (by decide) (by decide) (by decide)

/-- C3 counterexample: the claim says `open_from_bytes` stores the names
parsed out of the FilenameTable in lowercase, so that opening an archive
whose table holds `Foo` makes `exists("FOO")` true and `get("foo")` return
the blob.  Opening `c3input` (table holds `Foo` = [70, 111, 111], directory
CRC matches `Foo`) stores the key `Foo` unchanged, `exists("FOO")` is false
and `get("foo")` fails with `SrcFileNotFound`. -/
theorem c3_counterexample :
    ReadableArchive.open_from_bytes idZ c3input =
      .ok ⟨c3input, [([70, 111, 111], ⟨1, [⟨1, 1, 20⟩]⟩)]⟩
    ∧ lowerBytes [70, 111, 111] = [102, 111, 111]
    ∧ ReadableArchive.existsQ ⟨c3input, [([70, 111, 111], ⟨1, [⟨1, 1, 20⟩]⟩)]⟩ [70, 79, 79] =
        .ok false
    ∧ ReadableArchive.get idZ ⟨c3input, [([70, 111, 111], ⟨1, [⟨1, 1, 20⟩]⟩)]⟩ [102, 111, 111] =
        .err .srcFileNotFound := by
  decide

/-- C3 (amended): `set`, `rename` and `copy` lowercase names before storing,
so every archive reachable through the mutating operations (without `open`)
has only lowercase keys, and after `set("Foo", x)`, `exists("FOO")` is true
and `get("foo")` returns `x`; `open_from_bytes`, however, stores table names
as parsed, preserving their capitalisation. -/
theorem c3_mutating_ops_lowercase :
    (∀ a : WritableArchive, WReach a → KeysLower a)
    ∧ (∀ (z : Zlib) (a : ReadWriteArchive), RWReach z a → KeysLower a)
    ∧ (∀ (z : Zlib) (a : ReadWriteArchive) (x : List Nat),
        ReadWriteArchive.existsQ (ReadWriteArchive.set z a [70, 111, 111] x).2 [70, 79, 79] =
          .ok true
        ∧ ReadWriteArchive.get z (ReadWriteArchive.set z a [70, 111, 111] x).2 [102, 111, 111] =
            .ok x) := by
  refine ⟨WReach_keysLower, RWReach_keysLower, ?_⟩
  intro z a x
  have hlow1 : lowerBytes [70, 79, 79] = [102, 111, 111] := by decide
  have hlow2 : lowerBytes [70, 111, 111] = [102, 111, 111] := by decide
  have hlow3 : lowerBytes [102, 111, 111] = [102, 111, 111] := by decide
  constructor
  · unfold ReadWriteArchive.existsQ ReadWriteArchive.set
    rw [hlow1, hlow2, containsKey_insertR_self]
  · unfold ReadWriteArchive.get ReadWriteArchive.set
    rw [hlow3, hlow2, findVal_insertR_self]
    exact ReadWriteArchiveFile.inflate_deflate z x

/-- C3 witness: the lowercase-keys invariant at a concrete reachable
archive. -/
theorem c3_witness : KeysLower ((WritableArchive.set [] [70, 111, 111] [42]).2) :=
  c3_mutating_ops_lowercase.1 _ (WReach.set [] [70, 111, 111] [42] WReach.new)

/-- C1 counterexample: the names `cexN1 ≠ cexN2` share the PFS CRC
0xF94ADD96, so building a writable archive holding both and re-parsing its
saved bytes loses `cexN2`: the parsed map holds only `cexN1`, `exists`
returns false and `get` fails for `cexN2` — the round-trip map is not equal
to the archive's. -/
theorem c1_counterexample :
    cexN1 ≠ cexN2
    ∧ pfsCrc cexN1 = pfsCrc cexN2
    ∧ ReadWriteArchive.do_parse idZ
        (WritableArchive.save_to_bytes idZ [(cexN1, []), (cexN2, [])]) =
        .ok [(cexN1, ⟨[]⟩)]
    ∧ containsKey cexN2 [(cexN1, ([] : List Nat)), (cexN2, [])] = true
    ∧ ReadWriteArchive.existsQ [(cexN1, (⟨[]⟩ : ReadWriteArchiveFile))] cexN2 = .ok false
    ∧ ReadWriteArchive.get idZ [(cexN1, (⟨[]⟩ : ReadWriteArchiveFile))] cexN2 =
        .err .srcFileNotFound := by
  decide

/-- C1 (amended): for a writable archive whose lowercased keys have pairwise
distinct CRCs, none equal to the sentinel, and whose sizes fit a `u32`
(`SaveWF`), parsing the saved bytes with either reader yields a map with the
same keys in which `get` returns the same byte contents for every key; a
read-write archive built by the mutating operations holds deflations of raw
blobs and its save emits the same bytes, so the same holds for it.  Without
the CRC-distinctness hypothesis the round-trip fails, as the counterexample
with two colliding names shows. -/
theorem c1_save_parse_roundtrip (z : Zlib) (files : WritableArchive) (h : SaveWF z files) :
    (ReadWriteArchive.do_parse z (WritableArchive.save_to_bytes z files) =
        .ok (files.map fun kd => (kd.1, ReadWriteArchiveFile.deflate z kd.2)))
    ∧ ((files.map fun kd => (kd.1, ReadWriteArchiveFile.deflate z kd.2)).map Prod.fst =
        files.map Prod.fst)
    ∧ (∀ kd ∈ files,
        ReadWriteArchive.get z (files.map fun kd => (kd.1, ReadWriteArchiveFile.deflate z kd.2))
          kd.1 = .ok kd.2)
    ∧ (ReadWriteArchive.save_to_bytes z
        (files.map fun kd => (kd.1, ReadWriteArchiveFile.deflate z kd.2)) =
        WritableArchive.save_to_bytes z files)
    ∧ (∃ m, ReadableArchive.do_parse z (WritableArchive.save_to_bytes z files) = .ok m
        ∧ m.map Prod.fst = files.map Prod.fst
        ∧ ∀ kd ∈ files,
            ReadableArchive.get z ⟨WritableArchive.save_to_bytes z files, m⟩ kd.1 = .ok kd.2) := by
  have hsave := h
  obtain ⟨hnd, hsent, hlower, hvalid, hklen, hdlen, hcount, htable, hD⟩ := h
  have hkeysnd : (files.map Prod.fst).Nodup := keysNodup_of_crcNodup files hnd
  refine ⟨doParseRW_saveW z files hsave, ?_, ?_, saveRW_eq_saveW z files, ?_⟩
  · rw [List.map_map]
    rfl
  · intro kd hkd
    unfold ReadWriteArchive.get
    rw [hlower kd hkd]
    rw [findVal_map_of_mem (fun d => ReadWriteArchiveFile.deflate z d) files kd.1 kd.2
      hkeysnd hkd]
    exact ReadWriteArchiveFile.inflate_deflate z kd.2
  · refine ⟨entryFilesRNamed z 12 files, doParseR_saveW z files hsave, by
      rw [entryFilesRNamed_fst], ?_⟩
    intro kd hkd
    have hdropdata : (WritableArchive.save_to_bytes z files).drop 12 =
        filesDataW z files ++
          (WritableArchiveFile.deflate z (write_filenames (files.map Prod.fst)) ++
            dirSectionW z files) := by
      rw [saveW_decomp]
      have hgroup2 : u32le ((dataSectionW z files).length + 12) ++ [80, 70, 83, 32] ++
          u32le 131072 ++ dataSectionW z files ++ dirSectionW z files =
          (u32le ((dataSectionW z files).length + 12) ++
            ([80, 70, 83, 32] ++ u32le 131072)) ++
            (dataSectionW z files ++ dirSectionW z files) := by
        simp [List.append_assoc]
      have hlen12 : (u32le ((dataSectionW z files).length + 12) ++
          ([80, 70, 83, 32] ++ u32le 131072)).length = 12 := by
        simp [List.length_append]
      rw [hgroup2, List.drop_left' hlen12]
      unfold dataSectionW
      simp [List.append_assoc]
    rcases entryFilesRNamed_get z (WritableArchive.save_to_bytes z files) files 12
      (WritableArchiveFile.deflate z (write_filenames (files.map Prod.fst)) ++
        dirSectionW z files) hdropdata hkeysnd kd.1 kd.2 hkd with ⟨fl, hfind, hinf⟩
    unfold ReadableArchive.get
    rw [hlower kd hkd]
    show (match findVal kd.1 (entryFilesRNamed z 12 files) with
      | some ent => ReadableArchive.inflate_file_entry z (WritableArchive.save_to_bytes z files)
          ent
      | none => .err .srcFileNotFound) = .ok kd.2
    rw [hfind]
    exact hinf

/-- C1 witness: the round-trip at a concrete one-file archive. -/
theorem c1_witness :
    ReadWriteArchive.do_parse idZ (WritableArchive.save_to_bytes idZ [([97], [1, 2, 3])]) =
      .ok [([97], ReadWriteArchiveFile.deflate idZ [1, 2, 3])] :=
  (c1_save_parse_roundtrip idZ [([97], [1, 2, 3])] (by decide)).1

end PFS
